import Mathlib

/-!
Verification of the pwa-maker-android build-orchestration core.

The TypeScript sources are shallowly embedded: every definition below is a
direct translation of a function from the repository (file and line references
are given in the doc comments).  Strings are handled as `List Char` in the
core definitions, with `String` wrappers carrying the source names.  JavaScript
numeric string conversion (`Number`, `parseInt`) is modelled with exact
integer/rational arithmetic; this agrees with IEEE-754 evaluation on every
input whose decimal mantissa needs no rounding (in particular on all inputs
used in the theorems below, which are short digit strings).
-/

namespace PwaMaker

/-! ## Character and list-of-char utilities (JS string semantics) -/

/-- ASCII lowercasing of one character, as `String.prototype.toLowerCase`
acts on the ASCII range (non-ASCII characters are irrelevant here).
Character classes are phrased on code points to ease arithmetic reasoning:
`A`–`Z` is 65–90. -/
def lowerChar (c : Char) : Char :=
  if 65 ≤ c.toNat ∧ c.toNat ≤ 90 then Char.ofNat (c.toNat + 32) else c

/-- `toLowerCase` on a character list. -/
def lowerStr (l : List Char) : List Char := l.map lowerChar

/-- JS whitespace as recognised by `String.prototype.trim` (ASCII part:
space, tab, LF, VT, FF, CR). -/
def isJsSpace (c : Char) : Bool :=
  c.toNat = 32 ∨ c.toNat = 9 ∨ c.toNat = 10 ∨ c.toNat = 11 ∨ c.toNat = 12 ∨ c.toNat = 13

/-- `String.prototype.trim`. -/
def trimChars (l : List Char) : List Char :=
  ((l.dropWhile isJsSpace).reverse.dropWhile isJsSpace).reverse

/-- `String.prototype.split(sep)` for a one-character separator:
`"a..b".split('.') = ["a","","b"]`, `"".split('.') = [""]`. -/
def splitOnChar (sep : Char) : List Char → List (List Char)
  | [] => [[]]
  | c :: rest =>
    let r := splitOnChar sep rest
    if c = sep then [] :: r
    else
      match r with
      | [] => [[c]]
      | h :: t => (c :: h) :: t

theorem splitOnChar_ne_nil (sep : Char) (l : List Char) : splitOnChar sep l ≠ [] := by
  cases l with
  | nil => simp [splitOnChar]
  | cons c rest =>
    simp only [splitOnChar]
    by_cases h : c = sep
    · simp [h]
    · simp only [if_neg h]
      cases splitOnChar sep rest with
      | nil => simp
      | cons a b => simp

/-- Splitting a list that does not contain the separator yields the list itself. -/
theorem splitOnChar_no_sep (sep : Char) (l : List Char) (h : sep ∉ l) :
    splitOnChar sep l = [l] := by
  induction l with
  | nil => rfl
  | cons c rest ih =>
    have hc : c ≠ sep := by
      intro e; exact h (e ▸ List.mem_cons_self c rest)
    have hr : sep ∉ rest := fun m => h (List.mem_cons_of_mem c m)
    simp [splitOnChar, hc, ih hr]

/-- Splitting past a separator-free chunk peels that chunk off. -/
theorem splitOnChar_append_cons (sep : Char) (s rest : List Char) (h : sep ∉ s) :
    splitOnChar sep (s ++ sep :: rest) = s :: splitOnChar sep rest := by
  induction s with
  | nil => simp [splitOnChar]
  | cons c t ih =>
    have hc : c ≠ sep := by
      intro e; exact h (e ▸ List.mem_cons_self c t)
    have ht : sep ∉ t := fun m => h (List.mem_cons_of_mem c m)
    simp only [List.cons_append, splitOnChar, if_neg hc]
    rw [show t.append (sep :: rest) = t ++ sep :: rest from rfl, ih ht]

/-- `[0-9]` (code points 48–57). -/
def isDigitChar (c : Char) : Bool := 48 ≤ c.toNat ∧ c.toNat ≤ 57

def digitVal (c : Char) : Nat := c.toNat - 48

/-- Decimal value of a digit string. -/
def decValue (l : List Char) : Nat := l.foldl (fun a c => a * 10 + digitVal c) 0

/-- `[0-9a-fA-F]` (`a`–`f` is 97–102, `A`–`F` is 65–70). -/
def isHexDigitCI (c : Char) : Bool :=
  isDigitChar c ∨ (97 ≤ c.toNat ∧ c.toNat ≤ 102) ∨ (65 ≤ c.toNat ∧ c.toNat ≤ 70)

/-- `[0-9a-f]`. -/
def isHexDigitLower (c : Char) : Bool :=
  isDigitChar c ∨ (97 ≤ c.toNat ∧ c.toNat ≤ 102)

/-! ## JavaScript `Number(string)` (finite-integer fragment)

Model of the ECMAScript `Number(string)` conversion, restricted to the
question the sources ask of it: is the value a finite integer, and which one.
Values are computed exactly; see the header note on rounding. -/

/-- Split at the first `e`/`E` (exponent marker of a decimal literal). -/
def breakAtExp : List Char → List Char × Option (List Char)
  | [] => ([], none)
  | c :: r =>
    if c = 'e' ∨ c = 'E' then ([], some r)
    else
      let p := breakAtExp r
      (c :: p.1, p.2)

/-- A signed nonempty digit sequence, evaluated as an integer (used for the
exponent part of a decimal literal). -/
def parseSignedDigits (l : List Char) : Option Int :=
  match l with
  | '+' :: r => if r ≠ [] ∧ r.all isDigitChar then some (decValue r) else none
  | '-' :: r => if r ≠ [] ∧ r.all isDigitChar then some (-(decValue r : Int)) else none
  | r => if r ≠ [] ∧ r.all isDigitChar then some (decValue r) else none

/-- An unsigned decimal literal `digits [. digits] [e sign digits]`,
as mantissa and base-10 scale: value = mantissa * 10 ^ scale. -/
def parseDec (l : List Char) : Option (Nat × Int) :=
  let p := breakAtExp l
  let expo : Option Int :=
    match p.2 with
    | none => some 0
    | some e => parseSignedDigits e
  match expo with
  | none => none
  | some ex =>
    match splitOnChar '.' p.1 with
    | [i] =>
      if i ≠ [] ∧ i.all isDigitChar then some (decValue i, ex) else none
    | [i, f] =>
      if (i ≠ [] ∨ f ≠ []) ∧ i.all isDigitChar ∧ f.all isDigitChar then
        some (decValue (i ++ f), ex - f.length)
      else none
    | _ => none

/-- Value of a mantissa/scale pair when it is an integer. -/
def integralValue (m : Nat) (scale : Int) : Option Nat :=
  if m = 0 then some 0
  else if 0 ≤ scale then some (m * 10 ^ scale.toNat)
  else
    let k := (-scale).toNat
    if 10 ^ k ∣ m then some (m / 10 ^ k) else none

/-- Digits of a radix-`b` literal (hex/octal/binary, unsigned). -/
def radixDigitVal (b : Nat) (c : Char) : Option Nat :=
  let v : Option Nat :=
    if isDigitChar c then some (digitVal c)
    else if 97 ≤ c.toNat ∧ c.toNat ≤ 102 then some (c.toNat - 97 + 10)
    else if 65 ≤ c.toNat ∧ c.toNat ≤ 70 then some (c.toNat - 65 + 10)
    else none
  match v with
  | some x => if x < b then some x else none
  | none => none

def parseRadix (b : Nat) : List Char → Option Nat
  | [] => none
  | l => l.foldl (fun acc c =>
      match acc, radixDigitVal b c with
      | some a, some v => some (a * b + v)
      | _, _ => none) (some 0)

/-- Radix-literal dispatch of `Number(string)`: `0x`/`0X`, `0o`/`0O`,
`0b`/`0B` (these literals admit no sign). -/
def radixTag (t : List Char) : Option (Nat × List Char) :=
  match t with
  | '0' :: 'x' :: r => some (16, r)
  | '0' :: 'X' :: r => some (16, r)
  | '0' :: 'o' :: r => some (8, r)
  | '0' :: 'O' :: r => some (8, r)
  | '0' :: 'b' :: r => some (2, r)
  | '0' :: 'B' :: r => some (2, r)
  | _ => none

/-- Optional sign of a decimal literal; `true` = negative. -/
def stripNumSign (t : List Char) : Bool × List Char :=
  match t with
  | '+' :: r => (false, r)
  | '-' :: r => (true, r)
  | r => (false, r)

/-- Signed decimal part of `Number(string)` as a finite integer. -/
def decIntVal (t : List Char) : Option Int :=
  let s := stripNumSign t
  if s.2 = "Infinity".data then none
  else
    match parseDec s.2 with
    | none => none
    | some (m, sc) =>
      match integralValue m sc with
      | none => none
      | some v => some (if s.1 then -(v : Int) else (v : Int))

/-- `Number(s)` when the result is a finite integer, `none` otherwise
(NaN, ±Infinity, fractional values). -/
def jsNumberIntVal (l : List Char) : Option Int :=
  match trimChars l with
  | [] => some 0
  | t =>
    match radixTag t with
    | some (b, r) => (parseRadix b r).map Int.ofNat
    | none => decIntVal t

/-- The per-label test of the IPv4 branch of `isPrivateHostname`:
`Number.isInteger(o) && o >= 0 && o <= 255`, returning the octet. -/
def jsNumberOctet (l : List Char) : Option Nat :=
  match jsNumberIntVal l with
  | none => none
  | some v => if 0 ≤ v ∧ v ≤ 255 then some v.toNat else none

/-! ## SSRF guard (`isPrivateHostname`, manifestFetcher.ts) -/

/-- `octets.every(...)` + destructuring of `isPrivateHostname`. -/
def octetsOf : List (List Char) → Option (List Nat)
  | [] => some []
  | s :: r =>
    match jsNumberOctet s, octetsOf r with
    | some v, some vs => some (v :: vs)
    | _, _ => none

/-- The blocked-first-octet disjunction of `isPrivateHostname`
(manifestFetcher.ts lines 38–43). -/
def blockedQuadValsB (a b : Nat) : Bool :=
  a = 127 ∨ a = 10 ∨ a = 0 ∨ (a = 169 ∧ b = 254) ∨ (a = 192 ∧ b = 168) ∨
    (a = 172 ∧ 16 ≤ b ∧ b ≤ 31)

/-- The IPv4 branch: exactly four dot-separated parts, all octets valid. -/
def ipv4Check (l : List Char) : Bool :=
  let parts := splitOnChar '.' l
  if parts.length = 4 then
    match octetsOf parts with
    | some (a :: b :: _) => blockedQuadValsB a b
    | _ => false
  else false

/-- `/^f[cd][0-9a-f]{2}:/i` (IPv6 unique-local fc00::/7 textual test). -/
def fcRegexTest (l : List Char) : Bool :=
  match l with
  | c0 :: c1 :: c2 :: c3 :: c4 :: _ =>
    lowerChar c0 = 'f' ∧ (lowerChar c1 = 'c' ∨ lowerChar c1 = 'd') ∧
      isHexDigitLower (lowerChar c2) ∧ isHexDigitLower (lowerChar c3) ∧ c4 = ':'
  | _ => false

/-- `/^fe[89ab][0-9a-f]:/i` (IPv6 link-local fe80::/10 textual test). -/
def feRegexTest (l : List Char) : Bool :=
  match l with
  | c0 :: c1 :: c2 :: c3 :: c4 :: _ =>
    lowerChar c0 = 'f' ∧ lowerChar c1 = 'e' ∧
      (lowerChar c2 = '8' ∨ lowerChar c2 = '9' ∨ lowerChar c2 = 'a' ∨ lowerChar c2 = 'b') ∧
      isHexDigitLower (lowerChar c3) ∧ c4 = ':'
  | _ => false

/-- `h.startsWith('[') && h.endsWith(']') ? h.slice(1, -1) : h`. -/
def stripBrackets (l : List Char) : List Char :=
  match l with
  | '[' :: _ => if l.getLast? = some ']' then (l.drop 1).dropLast else l
  | _ => l

/-- Embedding of `isPrivateHostname` (manifestFetcher.ts lines 16–48). -/
def isPrivateHostnameL (hostname : List Char) : Bool :=
  let h := trimChars (lowerStr hostname)
  if h = "localhost".data ∨ h = "metadata.google.internal".data then true
  else
    let stripped := stripBrackets h
    if stripped = "::1".data ∨ stripped = "0:0:0:0:0:0:0:1".data then true
    else if fcRegexTest stripped then true
    else if feRegexTest stripped then true
    else ipv4Check stripped

/-- `isPrivateHostname(hostname)` on `String`. -/
def isPrivateHostname (hostname : String) : Bool :=
  isPrivateHostnameL hostname.data

/-! ## WHATWG URL platform model

Modelled from the platform: the repository calls `new URL(u)` for hostname,
pathname and validity.  The model handles absolute `http:`/`https:` URLs
(scheme, userinfo/port stripping, host lowercasing, path up to query or
fragment) and reports `none` where the constructor would throw.  Percent- and
dot-segment normalisation, non-http schemes and IDNA are outside the fragment
the theorems touch. -/

structure UrlParts where
  scheme : List Char
  host : List Char
  path : List Char
  deriving DecidableEq, Repr

/-- Authority text after the last `@` (userinfo stripped). -/
def afterLastAt (l : List Char) : List Char :=
  (l.reverse.takeWhile (fun c => c ≠ '@')).reverse

/-- Host portion of an authority: bracketed IPv6 kept whole, else up to `:`. -/
def hostOfAuthority (l : List Char) : Option (List Char) :=
  match l with
  | '[' :: r =>
    if ']' ∈ r then some ('[' :: (r.takeWhile (fun c => c ≠ ']')) ++ [']']) else none
  | _ =>
    let h := l.takeWhile (fun c => c ≠ ':')
    if h = [] then none else some h

def parseUrlAfterScheme (scheme rest : List Char) : Option UrlParts :=
  let authority := rest.takeWhile (fun c => c ≠ '/' ∧ c ≠ '?' ∧ c ≠ '#')
  let after := rest.drop authority.length
  match hostOfAuthority (afterLastAt authority) with
  | none => none
  | some host =>
    let p := after.takeWhile (fun c => c ≠ '?' ∧ c ≠ '#')
    some { scheme := scheme, host := lowerStr host, path := if p = [] then ['/'] else p }

def parseUrl (l : List Char) : Option UrlParts :=
  let t := trimChars l
  if "https://".data.isPrefixOf t then parseUrlAfterScheme "https".data (t.drop 8)
  else if "http://".data.isPrefixOf t then parseUrlAfterScheme "http".data (t.drop 7)
  else none

/-- `new URL(u).hostname`, as `none` when the constructor throws. -/
def urlHostname (u : String) : Option String :=
  (parseUrl u.data).map (fun p => String.mk p.host)

/-- `new URL(u).pathname`. -/
def urlPathname (u : String) : Option String :=
  (parseUrl u.data).map (fun p => String.mk p.path)

/-- `resolveUrl(href, base)` (manifestFetcher.ts lines 81–87):
`new URL(href, base).toString()`, falling back to `href` when parsing fails.
The model covers absolute, root-relative and path-relative `href`s. -/
def resolveUrl (href base : String) : String :=
  match parseUrl href.data with
  | some _ => href
  | none =>
    match parseUrl base.data with
    | none => href
    | some b =>
      let origin := b.scheme ++ "://".data ++ b.host
      match href.data with
      | '/' :: _ => String.mk (origin ++ href.data)
      | h =>
        let dir := (b.path.reverse.dropWhile (fun c => c ≠ '/')).reverse
        String.mk (origin ++ (if dir = [] then ['/'] else dir) ++ h)

/-- `isHttpsUrl(url)` (manifestFetcher.ts lines 217–223). -/
def isHttpsUrl (url : String) : Bool :=
  match parseUrl url.data with
  | some p => p.scheme = "https".data
  | none => false

/-! ## Package-id derivation (`derivePackageId`, manifestFetcher.ts 272–286) -/

/-- `[a-z]` (97–122). -/
def alphaLower (c : Char) : Bool := 97 ≤ c.toNat ∧ c.toNat ≤ 122

/-- `[a-z0-9_]` character class of the package-id regex. -/
def pkgChar (c : Char) : Bool := alphaLower c ∨ isDigitChar c ∨ c = '_'

/-- `/^[a-z]/.test(s) ? s : 'a' + s` on the cleaned label. -/
def ensureLetterHead (s : List Char) : List Char :=
  match s with
  | c :: _ => if alphaLower c then s else 'a' :: s
  | [] => ['a']

/-- One label of `derivePackageId`: lowercase, strip everything outside
`[a-z0-9_]`, prefix `a` when the result does not start with a letter. -/
def cleanLabel (l : List Char) : List Char :=
  ensureLetterHead ((lowerStr l).filter pkgChar)

/-- `while (cleaned.length < 3) cleaned.push('app')`. -/
def padToThree (ls : List (List Char)) : List (List Char) :=
  ls ++ List.replicate (3 - ls.length) "app".data

/-- `Array.prototype.join('.')`. -/
def joinDot : List (List Char) → List Char
  | [] => []
  | [l] => l
  | l :: rest => l ++ '.' :: joinDot rest

/-- Hostname part of `derivePackageId`. -/
def derivePackageIdCore (hostname : List Char) : List Char :=
  let parts := ((splitOnChar '.' hostname).filter (fun p => p ≠ [])).reverse
  joinDot (padToThree (parts.map cleanLabel))

/-- `derivePackageId(pwaUrl)`; `none` when `new URL` throws. -/
def derivePackageId (pwaUrl : String) : Option String :=
  (urlHostname pwaUrl).map (fun h => String.mk (derivePackageIdCore h.data))

/-- One label of the package-id regex: `[a-z][a-z0-9_]*`. -/
def pkgLabelOk (l : List Char) : Bool :=
  match l with
  | c :: r => alphaLower c ∧ r.all pkgChar
  | [] => false

/-- Decision procedure for `^[a-z][a-z0-9_]*(\.[a-z][a-z0-9_]*){2,}$`
(build.ts line 26): at least three dot-separated labels, each matching
`[a-z][a-z0-9_]*`.  Since labels cannot contain `.`, splitting on `.` is an
exact inverse of the regex's concatenation. -/
def pkgIdRegexTest (l : List Char) : Bool :=
  let labels := splitOnChar '.' l
  3 ≤ labels.length ∧ labels.all pkgLabelOk

/-! ## Icon selection (manifestFetcher.ts 160–233) -/

structure WebManifestIcon where
  src : String
  sizes : Option String
  type : Option String
  purpose : Option String
  deriving DecidableEq, Repr

/-- `String.prototype.includes(needle)`. -/
def strIncludes : List Char → List Char → Bool
  | [], n => n.isEmpty
  | hay@(_ :: t), n => n.isPrefixOf hay || strIncludes t n

/-- `i.purpose?.includes('maskable')`, with optional chaining: a missing
`purpose` is falsy. -/
def purposeHasMaskable (i : WebManifestIcon) : Bool :=
  match i.purpose with
  | some p => strIncludes p.data "maskable".data
  | none => false

/-- `String.prototype.endsWith(suffix)`. -/
def strEndsWith (l suf : List Char) : Bool := suf.isSuffixOf l

/-- `isSvgIcon` (manifestFetcher.ts 165–170). -/
def isSvgIcon (i : WebManifestIcon) : Bool :=
  i.type = some "image/svg+xml" ||
    (match i.src with
     | s => strEndsWith (lowerStr s.data) ".svg".data)

/-- `parseInt(w, 10)`: trim, optional sign, longest digit run; `none` = NaN. -/
def jsParseInt10 (l : List Char) : Option Int :=
  let t := trimChars l
  match t with
  | '+' :: r =>
    let d := r.takeWhile isDigitChar
    if d = [] then none else some (decValue d)
  | '-' :: r =>
    let d := r.takeWhile isDigitChar
    if d = [] then none else some (-(decValue d : Int))
  | r =>
    let d := r.takeWhile isDigitChar
    if d = [] then none else some (decValue d)

/-- One token of `maxSize`: `parseInt(w ?? '0', 10) || 0`, where `w` is the
part before the first `x` of the lowercased token. -/
def sizeToken (tok : List Char) : Int :=
  match splitOnChar 'x' (lowerStr tok) with
  | w :: _ => (jsParseInt10 w).getD 0
  | [] => 0

/-- `maxSize(sizes)` (manifestFetcher.ts 225–233): `Math.max` over the
space-separated tokens (the token list is never empty). -/
def maxSize (sizes : List Char) : Int :=
  match (splitOnChar ' ' sizes).map sizeToken with
  | [] => 0
  | v :: vs => vs.foldl max v

structure ScoredIcon where
  icon : WebManifestIcon
  size : Int
  svg : Bool
  deriving DecidableEq, Repr

/-- Score an icon: `{ icon: i, size: maxSize(i.sizes ?? '0x0'), svg: isSvgIcon(i) }`. -/
def scoreIcon (i : WebManifestIcon) : ScoredIcon :=
  { icon := i, size := maxSize ((i.sizes.getD "0x0").data), svg := isSvgIcon i }

/-- The sort comparator `(a, b) => Number(a.svg) - Number(b.svg) || b.size - a.size`. -/
def cmpIcon (a b : ScoredIcon) : Int :=
  let v : Int := (if a.svg then 1 else 0) - (if b.svg then 1 else 0)
  if v = 0 then b.size - a.size else v

/-- Stable insertion w.r.t. the comparator: the incoming element `x` comes
from an earlier array position than everything already in the sorted list, so
it lands before the first `y` with `cmpIcon x y ≤ 0`. -/
def insertScored (x : ScoredIcon) : List ScoredIcon → List ScoredIcon
  | [] => [x]
  | y :: t => if cmpIcon x y ≤ 0 then x :: y :: t else y :: insertScored x t

/-- Model of `Array.prototype.sort` with `cmpIcon` (stable, as required by
ECMAScript). -/
def sortScored : List ScoredIcon → List ScoredIcon
  | [] => []
  | x :: r => insertScored x (sortScored r)

/-- The `for (const candidate of scored)` loop: first candidate whose
resolved URL is HTTPS. -/
def firstHttps (base : String) : List ScoredIcon → Option String
  | [] => none
  | c :: r =>
    let resolved := resolveUrl c.icon.src base
    if isHttpsUrl resolved then some resolved else firstHttps base r

/-- The scored candidate pool of `selectBestIcon`. -/
def bestIconPool (icons : List WebManifestIcon) : List ScoredIcon :=
  sortScored ((icons.filter (fun i => !purposeHasMaskable i)).map scoreIcon)

/-- `selectBestIcon(icons, baseUrl)` (manifestFetcher.ts 178–195). -/
def selectBestIcon (icons : List WebManifestIcon) (baseUrl : String) : Option String :=
  if icons.length = 0 then none
  else firstHttps baseUrl (bestIconPool icons)

/-- The scored candidate pool of `selectMaskableIcon`. -/
def maskableIconPool (icons : List WebManifestIcon) : List ScoredIcon :=
  sortScored ((icons.filter (fun i => purposeHasMaskable i)).map scoreIcon)

/-- `selectMaskableIcon(icons, baseUrl)` (manifestFetcher.ts 198–214). -/
def selectMaskableIcon (icons : List WebManifestIcon) (baseUrl : String) : Option String :=
  if icons.length = 0 then none
  else firstHttps baseUrl (maskableIconPool icons)

/-! ## Build token issuer (token.ts 20–59)

The HMAC-SHA256 primitive is abstracted as a function from message to hex
digest (the secret is process state folded into it); all theorems either
quantify over well-formed digest functions or instantiate a concrete one. -/

/-- `token.lastIndexOf('.')`. -/
def lastIndexOfChar (c : Char) : List Char → Option Nat
  | [] => none
  | x :: r =>
    match lastIndexOfChar c r with
    | some i => some (i + 1)
    | none => if x = c then some 0 else none

/-- Value of one hex character for Node's `Buffer.from(s, 'hex')`. -/
def hexCharVal (c : Char) : Option Nat :=
  if isDigitChar c then some (digitVal c)
  else if 97 ≤ c.toNat ∧ c.toNat ≤ 102 then some (c.toNat - 97 + 10)
  else if 65 ≤ c.toNat ∧ c.toNat ≤ 70 then some (c.toNat - 65 + 10)
  else none

/-- `Buffer.from(s, 'hex')`: complete hex pairs up to the first invalid
character; a trailing lone nibble is dropped. -/
def hexDecodeNode : List Char → List Nat
  | c1 :: c2 :: r =>
    match hexCharVal c1, hexCharVal c2 with
    | some a, some b => (a * 16 + b) :: hexDecodeNode r
    | _, _ => []
  | _ => []

/-- `crypto.timingSafeEqual`: `none` models the `RangeError` thrown when the
buffers differ in byte length. -/
def timingSafeEqualB (a b : List Nat) : Option Bool :=
  if a.length = b.length then some (a = b) else none

/-- Decimal rendering of a timestamp, as `String(Date.now())`. -/
def natDecRepr (n : Nat) : List Char :=
  if h : n < 10 then [Char.ofNat (48 + n)]
  else natDecRepr (n / 10) ++ [Char.ofNat (48 + n % 10)]
  decreasing_by exact Nat.div_lt_self (Nat.lt_of_lt_of_le (by omega) (Nat.le_of_not_lt h)) (by omega)

/-- `generateToken()` (token.ts 26–30): `"{now}.{hmacHex(now)}"`. -/
def generateTokenM (hmac : List Char → List Char) (now : Nat) : List Char :=
  natDecRepr now ++ '.' :: hmac (natDecRepr now)

/-- `verifyToken(token)` (token.ts 37–59), at current time `now` (ms) and
digest function `hmac`.  `some b` is an ordinary boolean return; `none`
models the exception thrown by `crypto.timingSafeEqual` when the two
hex-decoded buffers differ in byte length. -/
def verifyTokenM (hmac : List Char → List Char) (now : Nat) (token : List Char) :
    Option Bool :=
  match lastIndexOfChar '.' token with
  | none => some false
  | some dot =>
    let ts := token.take dot
    let sig := token.drop (dot + 1)
    match jsNumberIntVal ts with
    | none => some false
    | some tsNum =>
      if (now : Int) - tsNum > 600000 then some false
      else if tsNum > (now : Int) + 60000 then some false
      else
        let expected := hmac ts
        if sig.length ≠ expected.length then some false
        else timingSafeEqualB (hexDecodeNode expected) (hexDecodeNode sig)

/-- Well-formed digest function: 64 lowercase hex characters, as
`createHmac('sha256', secret).update(ts).digest('hex')` produces. -/
def HmacWellFormed (hmac : List Char → List Char) : Prop :=
  ∀ s, (hmac s).length = 64 ∧ ∀ c ∈ hmac s, isHexDigitLower c = true

/-- A concrete digest function used for closed instances. -/
def hmacConst (_ : List Char) : List Char := List.replicate 64 '0'

/-! ## Progress bus (buildStore.ts 53–86)

`emitProgress` appends to the event buffer then calls every registered
listener; `addListener` replays the whole buffer to the new callback before
registering it.  Listeners are identified by `Nat`; `received l` is the
sequence of events delivered to callback `l` so far.  Events are abstract. -/

structure BusState where
  eventBuffer : List Nat
  listeners : List Nat
  received : Nat → List Nat

inductive BusOp where
  | emit (e : Nat)
  | subscribe (l : Nat)
  deriving DecidableEq, Repr

def initBus : BusState :=
  { eventBuffer := [], listeners := [], received := fun _ => [] }

/-- `emitProgress` (buildStore.ts 53–64): push to the buffer, then invoke the
listeners in order (a callback registered k times is invoked k times). -/
def emitStep (s : BusState) (e : Nat) : BusState :=
  { eventBuffer := s.eventBuffer ++ [e]
    listeners := s.listeners
    received := fun l => s.received l ++ List.replicate (s.listeners.count l) e }

/-- `addListener` (buildStore.ts 66–77): replay the buffered events to the
new callback, then register it. -/
def subscribeStep (s : BusState) (l : Nat) : BusState :=
  { eventBuffer := s.eventBuffer
    listeners := s.listeners ++ [l]
    received := fun m => if m = l then s.received m ++ s.eventBuffer else s.received m }

def busStep (s : BusState) : BusOp → BusState
  | .emit e => emitStep s e
  | .subscribe l => subscribeStep s l

def busRun (s : BusState) : List BusOp → BusState
  | [] => s
  | op :: rest => busRun (busStep s op) rest

/-- Events emitted by a sequence of operations, in order. -/
def emittedEvents (ops : List BusOp) : List Nat :=
  ops.filterMap (fun op => match op with | .emit e => some e | _ => none)

/-! ## Job store lifecycle (buildStore.ts 11–49, build.ts 198–224)

State of one job (ids are unguessable UUIDs, assigned once; each job's record
evolves independently, so the model tracks a single job).  The operations are
the store calls the system actually performs on a job:

* `create` — `createBuild` (buildStore.ts 11–29): status `queued`, no
  `buildDir`;
* `startRun` — `updateBuild(id, { status: 'running' })` (build.ts 199);
* `finishSuccess dir apk` — the success update (build.ts 210–216), the only
  call site that writes `buildDir`;
* `finishError msg` — the failure update (build.ts 221);
* `delete` — `deleteBuild` (buildStore.ts 41–49): remove from the store and
  `rm` the recorded `buildDir` when one is present.

`updateBuild` and `deleteBuild` are no-ops on an unknown id (a deleted job),
hence the `Option.map`.  `emitProgress` writes only `eventBuffer` (buildStore.ts
56) — never `status` or `buildDir` — so emit operations are omitted. -/

inductive Status where
  | queued
  | running
  | complete
  | error
  deriving DecidableEq, Repr

structure JobRec where
  status : Status
  buildDir : Option String
  apkPath : Option String
  errorMessage : Option String
  deriving DecidableEq, Repr

inductive SysOp where
  | create
  | startRun
  | finishSuccess (dir apk : String)
  | finishError (msg : String)
  | delete
  deriving DecidableEq, Repr

/-- One store operation: next job record and the list of directories removed
from the filesystem by this step. -/
def sysStep (s : Option JobRec) : SysOp → Option JobRec × List String
  | .create => (some { status := .queued, buildDir := none, apkPath := none, errorMessage := none }, [])
  | .startRun => (s.map fun j => { j with status := .running }, [])
  | .finishSuccess dir apk =>
    (s.map fun j => { j with status := .complete, buildDir := some dir, apkPath := some apk }, [])
  | .finishError msg =>
    (s.map fun j => { j with status := .error, errorMessage := some msg }, [])
  | .delete =>
    (none, match s with
           | some j => (match j.buildDir with | some d => [d] | none => [])
           | none => [])

def sysRun (s : Option JobRec × List String) : List SysOp → Option JobRec × List String
  | [] => s
  | op :: rest =>
    let n := sysStep s.1 op
    sysRun (n.1, s.2 ++ n.2) rest

def initStore : Option JobRec × List String := (none, [])

def isFinishOp : SysOp → Bool
  | .finishSuccess _ _ => true
  | .finishError _ => true
  | _ => false

/-- Ops kept by the runner-structure filter: everything except `delete`
(those are the TTL timer and the download handler, which may fire at any
point after creation). -/
def isNonDelete : SysOp → Bool
  | .delete => false
  | _ => true

/-- The sequences of non-delete operations `runBuild` can have performed so
far: nothing yet, the `running` update, or the `running` update followed by
exactly one terminal update (build.ts 198–224 performs them in this order,
once per job). -/
def RunnerOps (l : List SysOp) : Prop :=
  l = [] ∨ l = [.startRun] ∨ ∃ f, isFinishOp f = true ∧ l = [.startRun, f]

/-- Reachable operation sequences on one job: nothing yet, or `createBuild`
followed by an interleaving of the runner's updates with any number of
deletes. -/
def ReachableTrace (t : List SysOp) : Prop :=
  t = [] ∨ ∃ rest, t = .create :: rest ∧ RunnerOps (rest.filter isNonDelete)

/-- Forward distance through the state machine. -/
def statusRank : Status → Nat
  | .queued => 0
  | .running => 1
  | .complete => 2
  | .error => 2

def isTerminal : Status → Bool
  | .complete => true
  | .error => true
  | _ => false

/-! ## Build pipeline (builder.ts: buildApk / runPipeline)

Five external effects can fail; each is an `Except String` outcome provided by
the environment.  `runPipeline` (builder.ts 509–542) runs them in order and
aborts at the first failure; `buildApk` (builder.ts 490–505) wraps it in
`try/catch`, removing the working directory exactly on the error path.  The
trace records the stages started and the directories removed. -/

structure PipelineEnv where
  genProject : Except String Unit
  chmodGradlew : Except String Unit
  genKeystore : Except String Unit
  gradle : Except String Unit
  findApk : Except String String
  sign : Except String Unit

inductive StageTag where
  | generateProject
  | chmodStage
  | keystore
  | gradleBuild
  | findApkStage
  | signStage
  deriving DecidableEq, Repr

/-- `String.prototype.replace(pat, rep)` for a string pattern: first
occurrence only; unchanged when the pattern does not occur. -/
def replaceFirst (pat rep : List Char) : List Char → List Char
  | [] => if pat = [] then rep else []
  | hay@(c :: t) =>
    if pat.isPrefixOf hay then rep ++ hay.drop pat.length
    else c :: replaceFirst pat rep t

structure BuildResult where
  apkPath : String
  buildDir : String
  deriving DecidableEq, Repr

/-- `runPipeline(options, buildDir, onProgress)` (builder.ts 509–542):
stages in fixed order, each started only if every earlier one succeeded. -/
def runPipelineM (env : PipelineEnv) (buildDir : String) :
    List StageTag × Except String BuildResult :=
  match env.genProject with
  | .error e => ([.generateProject], .error e)
  | .ok _ =>
    match env.chmodGradlew with
    | .error e => ([.generateProject, .chmodStage], .error e)
    | .ok _ =>
      match env.genKeystore with
      | .error e => ([.generateProject, .chmodStage, .keystore], .error e)
      | .ok _ =>
        match env.gradle with
        | .error e => ([.generateProject, .chmodStage, .keystore, .gradleBuild], .error e)
        | .ok _ =>
          match env.findApk with
          | .error e =>
            ([.generateProject, .chmodStage, .keystore, .gradleBuild, .findApkStage], .error e)
          | .ok unsignedApk =>
            match env.sign with
            | .error e =>
              ([.generateProject, .chmodStage, .keystore, .gradleBuild, .findApkStage,
                 .signStage], .error e)
            | .ok _ =>
              ([.generateProject, .chmodStage, .keystore, .gradleBuild, .findApkStage,
                 .signStage],
                .ok { apkPath :=
                        String.mk (replaceFirst "-unsigned".data "-signed".data
                          unsignedApk.data)
                      buildDir := buildDir })

/-- `buildApk` (builder.ts 490–505): run the pipeline; on error, remove the
working directory (once) before rethrowing; on success the directory is kept. -/
def buildApkM (env : PipelineEnv) (buildDir : String) :
    List StageTag × List String × Except String BuildResult :=
  let r := runPipelineM env buildDir
  match r.2 with
  | .error e => (r.1, [buildDir], .error e)
  | .ok v => (r.1, [], .ok v)

def allStages : List StageTag :=
  [.generateProject, .chmodStage, .keystore, .gradleBuild, .findApkStage, .signStage]

/-! ## Outbound fetches and the SSRF gate

`fetchWithTimeout` (manifestFetcher.ts 52–78) resolves the hostname, consults
`isPrivateHostname` and only then performs `fetch`; `fetchAndConvertSvg`
(builder.ts 422–432) calls the global `fetch` directly.  The network is a
function from URL to response; the first component of each result is the list
of URLs for which a network request was actually issued. -/

structure NetResponse where
  ok : Bool
  status : Nat
  body : String
  deriving DecidableEq, Repr

inductive FetchErr where
  | invalidUrl
  | ssrfBlocked (host : String)
  | httpError (status : Nat) (url : String)
  deriving DecidableEq, Repr

/-- `fetchWithTimeout(url)` (manifestFetcher.ts 52–78). -/
def fetchWithTimeoutM (net : String → NetResponse) (url : String) :
    List String × Except FetchErr NetResponse :=
  match urlHostname url with
  | none => ([], .error .invalidUrl)
  | some h =>
    if isPrivateHostname h then ([], .error (.ssrfBlocked h))
    else ([url], .ok (net url))

/-- `isSvgUrl(url)` (builder.ts 409–415). -/
def isSvgUrl (url : String) : Bool :=
  match urlPathname url with
  | some p => strEndsWith (lowerStr p.data) ".svg".data
  | none => false

/-- `fetchAndConvertSvg(url, size)` (builder.ts 422–432): issues `fetch(url)`
with a timeout signal but no hostname guard; non-2xx responses throw; the
rasterised PNG is abstracted as the response body. -/
def fetchAndConvertSvgM (net : String → NetResponse) (url : String) :
    List String × Except FetchErr String :=
  match urlHostname url with
  | none => ([], .error .invalidUrl)
  | some _ =>
    let r := net url
    ([url], if r.ok then .ok r.body else .error (.httpError r.status url))

/-! ## Request validation (build.ts 25–60)

`BuildOptionsSchema`: zod runs each field's checks in declaration order and
applies `transform` only after the length checks have passed. -/

structure RawBuildOptions where
  pwaUrl : String
  appName : String
  shortName : String
  packageId : String
  display : String
  orientation : String
  themeColor : String
  backgroundColor : String
  iconUrl : String
  maskableIconUrl : Option String
  deriving DecidableEq, Repr

structure ParsedBuildOptions where
  pwaUrl : String
  appName : String
  shortName : String
  packageId : String
  display : String
  orientation : String
  themeColor : String
  backgroundColor : String
  iconUrl : String
  maskableIconUrl : Option String
  deriving DecidableEq, Repr

/-- The characters removed by the `transform`s: `/[<>&"'`]/g`. -/
def markupChar (c : Char) : Bool :=
  c = '<' ∨ c = '>' ∨ c = '&' ∨ c = '"' ∨ c = '\'' ∨ c = '`'

def stripMarkup (l : List Char) : List Char := l.filter (fun c => !markupChar c)

/-- `z.string().url()`, modelled by the URL fragment above. -/
def isUrlShaped (s : String) : Bool := (parseUrl s.data).isSome

/-- `/^#[0-9a-fA-F]{6}$/`. -/
def hexColorTest (s : String) : Bool :=
  match s.data with
  | '#' :: r => r.length = 6 ∧ r.all isHexDigitCI
  | _ => false

def displayEnumOk (s : String) : Bool :=
  s = "standalone" ∨ s = "fullscreen" ∨ s = "minimal-ui"

def orientationEnumOk (s : String) : Bool :=
  s = "portrait" ∨ s = "landscape" ∨ s = "default"

/-- `BuildOptionsSchema.safeParse` (build.ts 28–60); `dev` is
`NODE_ENV === 'development'`. -/
def parseBuildOptions (dev : Bool) (r : RawBuildOptions) : Option ParsedBuildOptions :=
  if isUrlShaped r.pwaUrl ∧
      (if dev then "http".data.isPrefixOf r.pwaUrl.data
       else "https://".data.isPrefixOf r.pwaUrl.data) ∧
      1 ≤ r.appName.length ∧ r.appName.length ≤ 50 ∧
      1 ≤ r.shortName.length ∧ r.shortName.length ≤ 12 ∧
      pkgIdRegexTest r.packageId.data ∧
      displayEnumOk r.display ∧ orientationEnumOk r.orientation ∧
      hexColorTest r.themeColor ∧ hexColorTest r.backgroundColor ∧
      isUrlShaped r.iconUrl ∧
      r.maskableIconUrl.all isUrlShaped then
    some { pwaUrl := r.pwaUrl
           appName := String.mk (stripMarkup r.appName.data)
           shortName := String.mk (stripMarkup r.shortName.data)
           packageId := r.packageId
           display := r.display
           orientation := r.orientation
           themeColor := r.themeColor
           backgroundColor := r.backgroundColor
           iconUrl := r.iconUrl
           maskableIconUrl := r.maskableIconUrl }
  else none

/-! ## Specification-side predicates (§4.1, §8 of the spec)

These transcribe the spec's words, for comparison with the embedded code. -/

/-- The blocked first-octet ranges of §4.1: loopback 127/8, RFC1918 10/8,
"this network" 0/8, link-local 169.254/16, 192.168/16, 172.16/12. -/
def QuadBlockedSpec (a b : Nat) : Prop :=
  a = 127 ∨ a = 10 ∨ a = 0 ∨ (a = 169 ∧ b = 254) ∨ (a = 192 ∧ b = 168) ∨
    (a = 172 ∧ 16 ≤ b ∧ b ≤ 31)

/-- A decimal label of a dotted quad. -/
def DigitsLabel (s : List Char) : Prop :=
  s ≠ [] ∧ ∀ c ∈ s, isDigitChar c = true

instance (a b : Nat) : Decidable (QuadBlockedSpec a b) := by
  unfold QuadBlockedSpec
  infer_instance

/-- `h` is the dotted-quad spelling of four decimal octet labels. -/
def DottedQuad (h s1 s2 s3 s4 : List Char) : Prop :=
  h = s1 ++ '.' :: (s2 ++ '.' :: (s3 ++ '.' :: s4)) ∧
    DigitsLabel s1 ∧ DigitsLabel s2 ∧ DigitsLabel s3 ∧ DigitsLabel s4 ∧
    decValue s1 ≤ 255 ∧ decValue s2 ≤ 255 ∧ decValue s3 ≤ 255 ∧ decValue s4 ≤ 255

/-- Characters a lowercase IPv6 literal may contain. -/
def Ipv6Chars (h : List Char) : Prop :=
  ∀ c ∈ h, isHexDigitLower c = true ∨ c = ':'

/-- Textual form of an address in `fc00::/7`: first group `fc`/`fd` plus two
hex digits, then a group separator. -/
def UniqueLocalAddr (h : List Char) : Prop :=
  Ipv6Chars h ∧ ∃ c1 c2 c3 rest, (c1 = 'c' ∨ c1 = 'd') ∧
    isHexDigitLower c2 = true ∧ isHexDigitLower c3 = true ∧
    h = 'f' :: c1 :: c2 :: c3 :: ':' :: rest

/-- Textual form of an address in `fe80::/10`: first group `fe8`–`feb` plus a
hex digit, then a group separator. -/
def LinkLocalAddr (h : List Char) : Prop :=
  Ipv6Chars h ∧ ∃ c2 c3 rest, (c2 = '8' ∨ c2 = '9' ∨ c2 = 'a' ∨ c2 = 'b') ∧
    isHexDigitLower c3 = true ∧ h = 'f' :: 'e' :: c2 :: c3 :: ':' :: rest

/-- The blocked classes enumerated in §4.1 of the spec. -/
def BlockedHostnameSpec (h : String) : Prop :=
  h = "localhost" ∨ h = "metadata.google.internal" ∨
    (∃ s1 s2 s3 s4, DottedQuad h.data s1 s2 s3 s4 ∧
      QuadBlockedSpec (decValue s1) (decValue s2)) ∨
    h = "::1" ∨ h = "[::1]" ∨ UniqueLocalAddr h.data ∨ LinkLocalAddr h.data

/-- A public IPv4 address: a dotted quad outside every blocked range. -/
def PublicQuad (h : String) : Prop :=
  ∃ s1 s2 s3 s4, DottedQuad h.data s1 s2 s3 s4 ∧
    ¬QuadBlockedSpec (decValue s1) (decValue s2)

/-- `[a-z0-9-]`, the characters of a lowercase DNS label. -/
def dnsChar (c : Char) : Bool := alphaLower c ∨ isDigitChar c ∨ c = '-'

/-- A syntactically valid public DNS host name, lowercase: nonempty labels of
letters, digits and hyphens, an alphabetic top-level label, and not one of the
two specially blocked names. -/
def PublicDnsName (h : String) : Prop :=
  (∀ c ∈ h.data, dnsChar c = true ∨ c = '.') ∧
    (∀ lbl ∈ splitOnChar '.' h.data, lbl ≠ []) ∧
    (∃ lst, (splitOnChar '.' h.data).getLast? = some lst ∧
      ∀ c ∈ lst, alphaLower c = true) ∧
    h ≠ "localhost" ∧ h ≠ "metadata.google.internal"

/-! ## Invariant helpers for the job store model -/

/-- The record `createBuild` makes (buildStore.ts 13–25, modulo the fields
the model tracks). -/
def queuedRec : JobRec :=
  { status := .queued, buildDir := none, apkPath := none, errorMessage := none }

def runningRec : JobRec :=
  { status := .running, buildDir := none, apkPath := none, errorMessage := none }

def completeRec (dir apk : String) : JobRec :=
  { status := .complete, buildDir := some dir, apkPath := some apk, errorMessage := none }

def errorRec (msg : String) : JobRec :=
  { status := .error, buildDir := none, apkPath := none, errorMessage := some msg }

/-- Job record determined by the runner operations applied so far (no
delete): `queued` after creation, `running` after the first update, the
corresponding terminal record after the finish update. -/
def recOfOps : List SysOp → Option JobRec
  | [] => some queuedRec
  | [.startRun] => some runningRec
  | [.startRun, .finishSuccess dir apk] => some (completeRec dir apk)
  | [.startRun, .finishError msg] => some (errorRec msg)
  | _ => none

/-- The job record after `create` followed by `rest`. -/
def jobAfter (rest : List SysOp) : Option JobRec :=
  if SysOp.delete ∈ rest then none else recOfOps (rest.filter isNonDelete)

/-! ## Concrete instances used by closed theorems -/

/-- A stub network: every request succeeds with body `"png"`. -/
def netStub : String → NetResponse := fun _ => { ok := true, status := 200, body := "png" }

/-- A fully valid creation request. -/
def rawGood : RawBuildOptions :=
  { pwaUrl := "https://example.com", appName := "My App", shortName := "App"
    packageId := "com.example.app", display := "standalone", orientation := "portrait"
    themeColor := "#1a2b3c", backgroundColor := "#FFffFF"
    iconUrl := "https://example.com/icon.png", maskableIconUrl := none }

/-- The same request with the display name `"<"`: one character, so it passes
the length checks, and the transform then strips it to the empty string. -/
def rawMarkupName : RawBuildOptions :=
  { rawGood with appName := "<" }

/-! ## Basic lemmas about the string toolkit -/

theorem lowerChar_eq_self {c : Char} (h : c.toNat < 65 ∨ 90 < c.toNat) :
    lowerChar c = c := by
  unfold lowerChar
  rw [if_neg]
  omega

theorem lowerChar_of_digit {c : Char} (h : isDigitChar c = true) : lowerChar c = c := by
  simp only [isDigitChar, decide_eq_true_eq] at h
  exact lowerChar_eq_self (by omega)

theorem lowerStr_eq_self {l : List Char} (h : ∀ c ∈ l, lowerChar c = c) :
    lowerStr l = l := by
  unfold lowerStr
  exact List.map_congr_left h |>.trans (List.map_id l)

theorem dropWhile_eq_self {p : Char → Bool} {l : List Char}
    (h : ∀ c ∈ l, p c = false) : l.dropWhile p = l := by
  cases l with
  | nil => rfl
  | cons c r =>
    have : p c = false := h c (List.mem_cons_self c r)
    simp [List.dropWhile, this]

theorem trimChars_eq_self {l : List Char} (h : ∀ c ∈ l, isJsSpace c = false) :
    trimChars l = l := by
  unfold trimChars
  rw [dropWhile_eq_self h, dropWhile_eq_self (fun c hc => h c (List.mem_reverse.mp hc)),
    List.reverse_reverse]

theorem isJsSpace_false_of_range {c : Char} (h : 33 ≤ c.toNat) : isJsSpace c = false := by
  simp only [isJsSpace, decide_eq_false_iff_not]
  omega

/-- Characters of a decimal label (digits or the separators used in
hostnames) are untouched by `toLowerCase` and `trim`. -/
theorem digit_or_dot_lower {c : Char} (h : isDigitChar c = true ∨ c = '.') :
    lowerChar c = c := by
  rcases h with h | rfl
  · exact lowerChar_of_digit h
  · rfl

theorem digit_or_dot_not_space {c : Char} (h : isDigitChar c = true ∨ c = '.') :
    isJsSpace c = false := by
  rcases h with h | rfl
  · simp only [isDigitChar, decide_eq_true_eq] at h
    exact isJsSpace_false_of_range (by omega)
  · rfl

/-! ### Parsing digit strings with `Number` -/

theorem breakAtExp_no_marker {l : List Char}
    (h : ∀ c ∈ l, c ≠ 'e' ∧ c ≠ 'E') : breakAtExp l = (l, none) := by
  induction l with
  | nil => rfl
  | cons c r ih =>
    have hc := h c (List.mem_cons_self c r)
    have hr := ih (fun x hx => h x (List.mem_cons_of_mem c hx))
    simp only [breakAtExp]
    rw [if_neg (by simp [hc.1, hc.2]), hr]

theorem digit_ne_markers {c : Char} (h : isDigitChar c = true) : c ≠ 'e' ∧ c ≠ 'E' := by
  simp only [isDigitChar, decide_eq_true_eq] at h
  constructor <;> (intro he; subst he; simp at h)

theorem digit_ne_sep {c : Char} (h : isDigitChar c = true) : c ≠ '.' := by
  simp only [isDigitChar, decide_eq_true_eq] at h
  intro he; subst he; simp at h

/-- `parseDec` on a nonempty digit string: mantissa is its decimal value,
scale 0. -/
theorem parseDec_digits {l : List Char} (h1 : l ≠ []) (h2 : l.all isDigitChar) :
    parseDec l = some (decValue l, 0) := by
  have hall : ∀ c ∈ l, isDigitChar c = true := fun c hc => List.all_eq_true.mp h2 c hc
  have hbrk : breakAtExp l = (l, none) :=
    breakAtExp_no_marker (fun c hc => digit_ne_markers (hall c hc))
  have hsplit : splitOnChar '.' l = [l] :=
    splitOnChar_no_sep '.' l (fun hm => digit_ne_sep (hall '.' hm) rfl)
  simp only [parseDec, hbrk, hsplit]
  simp [h1, h2]

theorem integralValue_scale_zero (m : Nat) : integralValue m 0 = some m := by
  unfold integralValue
  by_cases h : m = 0 <;> simp [h]

/-- A list all of whose characters are not lowercase letters or signs keeps
no radix tag: the second character of every radix literal is a letter. -/
theorem radixTag_eq_none {t : List Char}
    (h : ∀ c ∈ t, c ≠ 'x' ∧ c ≠ 'X' ∧ c ≠ 'o' ∧ c ≠ 'O' ∧ c ≠ 'b' ∧ c ≠ 'B') :
    radixTag t = none := by
  unfold radixTag
  split
  · exact absurd rfl (h 'x' (by simp)).1
  · exact absurd rfl (h 'X' (by simp)).2.1
  · exact absurd rfl (h 'o' (by simp)).2.2.1
  · exact absurd rfl (h 'O' (by simp)).2.2.2.1
  · exact absurd rfl (h 'b' (by simp)).2.2.2.2.1
  · exact absurd rfl (h 'B' (by simp)).2.2.2.2.2
  · rfl

theorem stripNumSign_eq_self {t : List Char}
    (h : ∀ c ∈ t, c ≠ '+' ∧ c ≠ '-') : stripNumSign t = (false, t) := by
  unfold stripNumSign
  split
  · exact absurd rfl (h '+' (by simp)).1
  · exact absurd rfl (h '-' (by simp)).2
  · rfl

theorem digit_string_ne_infinity {l : List Char}
    (h : ∀ c ∈ l, isDigitChar c = true) : l ≠ "Infinity".data := by
  intro he
  have : isDigitChar 'I' = true := h 'I' (by rw [he]; decide)
  simp [isDigitChar] at this

/-- `Number` of a nonempty digit string is its decimal value. -/
theorem jsNumberIntVal_digits {l : List Char} (h1 : l ≠ []) (h2 : l.all isDigitChar) :
    jsNumberIntVal l = some ((decValue l : Nat) : Int) := by
  have hall : ∀ c ∈ l, isDigitChar c = true := fun c hc => List.all_eq_true.mp h2 c hc
  have htoNat : ∀ c ∈ l, 48 ≤ c.toNat ∧ c.toNat ≤ 57 := by
    intro c hc
    have := hall c hc
    simpa [isDigitChar] using this
  have htrim : trimChars l = l :=
    trimChars_eq_self (fun c hc => isJsSpace_false_of_range (by have := htoNat c hc; omega))
  have hradix : radixTag l = none := by
    refine radixTag_eq_none (fun c hc => ?_)
    have := htoNat c hc
    refine ⟨?_, ?_, ?_, ?_, ?_, ?_⟩ <;> (intro he; subst he; simp_all)
  have hsign : stripNumSign l = (false, l) := by
    refine stripNumSign_eq_self (fun c hc => ?_)
    have := htoNat c hc
    constructor <;> (intro he; subst he; simp_all)
  have hdec : decIntVal l = some ((decValue l : Nat) : Int) := by
    unfold decIntVal
    rw [hsign]
    simp only [if_neg (digit_string_ne_infinity hall), parseDec_digits h1 h2,
      integralValue_scale_zero]
    simp
  unfold jsNumberIntVal
  rw [htrim]
  obtain ⟨c, r, rfl⟩ := List.exists_cons_of_ne_nil h1
  simp only [hradix, hdec]

/-! ## Lemmas for the SSRF guard -/

theorem mem_of_getLast?_eq {α : Type} {l : List α} {a : α}
    (h : l.getLast? = some a) : a ∈ l := by
  obtain ⟨hne, rfl⟩ := List.mem_getLast?_eq_getLast (Option.mem_def.mpr h)
  exact List.getLast_mem hne

theorem ne_of_mem_not_mem {x lit : List Char} {c : Char}
    (hc : c ∈ lit) (hn : c ∉ x) : x ≠ lit :=
  fun e => hn (e ▸ hc)

theorem lowerChar_of_hexLower {c : Char} (h : isHexDigitLower c = true) :
    lowerChar c = c := by
  simp only [isHexDigitLower, isDigitChar, decide_eq_true_eq] at h
  exact lowerChar_eq_self (by omega)

theorem stripBrackets_eq_self {x : List Char} (h : '[' ∉ x) : stripBrackets x = x := by
  unfold stripBrackets
  split
  · exact absurd (by simp) h
  · rfl

theorem fcRegexTest_false_of_head {x : List Char} {c : Char}
    (hx : x.head? = some c) (hc : lowerChar c ≠ 'f') : fcRegexTest x = false := by
  unfold fcRegexTest
  split
  · rename_i c0 c1 c2 c3 c4 tail
    simp only [List.head?] at hx
    simp only [decide_eq_false_iff_not]
    rintro ⟨hf, -⟩
    exact hc (by injection hx with h0; rw [← h0]; exact hf)
  · rfl

theorem feRegexTest_false_of_head {x : List Char} {c : Char}
    (hx : x.head? = some c) (hc : lowerChar c ≠ 'f') : feRegexTest x = false := by
  unfold feRegexTest
  split
  · rename_i c0 c1 c2 c3 c4 tail
    simp only [List.head?] at hx
    simp only [decide_eq_false_iff_not]
    rintro ⟨hf, -⟩
    exact hc (by injection hx with h0; rw [← h0]; exact hf)
  · rfl

theorem fcRegexTest_colon {x : List Char} (h : fcRegexTest x = true) : ':' ∈ x := by
  unfold fcRegexTest at h
  split at h
  · rename_i c0 c1 c2 c3 c4 tail
    simp only [decide_eq_true_eq] at h
    obtain ⟨-, -, -, -, rfl⟩ := h
    simp
  · exact absurd h (by simp)

theorem feRegexTest_colon {x : List Char} (h : feRegexTest x = true) : ':' ∈ x := by
  unfold feRegexTest at h
  split at h
  · rename_i c0 c1 c2 c3 c4 tail
    simp only [decide_eq_true_eq] at h
    obtain ⟨-, -, -, -, rfl⟩ := h
    simp
  · exact absurd h (by simp)

/-- Branch navigation: for a hostname unchanged by lowercasing, trimming and
bracket-stripping and distinct from the four literal checks, the guard is
decided by the regex tests and the IPv4 branch. -/
theorem isPrivateHostnameL_reduce {x : List Char}
    (hid : trimChars (lowerStr x) = x) (hbr : stripBrackets x = x)
    (h1 : x ≠ "localhost".data) (h2 : x ≠ "metadata.google.internal".data)
    (h3 : x ≠ "::1".data) (h4 : x ≠ "0:0:0:0:0:0:0:1".data) :
    isPrivateHostnameL x =
      (if fcRegexTest x then true else if feRegexTest x then true else ipv4Check x) := by
  unfold isPrivateHostnameL
  simp only [hid, hbr]
  rw [if_neg (not_or.mpr ⟨h1, h2⟩), if_neg (not_or.mpr ⟨h3, h4⟩)]

theorem breakAtExp_fst_of_none {l : List Char} (h : (breakAtExp l).2 = none) :
    (breakAtExp l).1 = l := by
  induction l with
  | nil => rfl
  | cons c r ih =>
    simp only [breakAtExp] at h ⊢
    by_cases hc : c = 'e' ∨ c = 'E'
    · rw [if_pos hc] at h; exact absurd h (by simp)
    · rw [if_neg hc] at h ⊢
      simpa using ih h

theorem breakAtExp_decomp {l p e : List Char} (h : breakAtExp l = (p, some e)) :
    ∃ m, (m = 'e' ∨ m = 'E') ∧ l = p ++ m :: e := by
  induction l generalizing p with
  | nil => exact absurd h (by simp [breakAtExp])
  | cons c r ih =>
    simp only [breakAtExp] at h
    by_cases hc : c = 'e' ∨ c = 'E'
    · rw [if_pos hc] at h
      have h1 : ([] : List Char) = p := congrArg Prod.fst h
      have h2 : some r = some e := congrArg Prod.snd h
      have h2e : r = e := by injection h2
      subst h2e
      exact ⟨c, hc, by rw [← h1]; rfl⟩
    · rw [if_neg hc] at h
      have h1 : c :: (breakAtExp r).1 = p := congrArg Prod.fst h
      have h2 : (breakAtExp r).2 = some e := congrArg Prod.snd h
      have h2x : breakAtExp r = ((breakAtExp r).1, some e) := by rw [← h2]
      obtain ⟨m, hm, hr⟩ := ih h2x
      refine ⟨m, hm, ?_⟩
      rw [← h1, List.cons_append, ← hr]

theorem parseSignedDigits_no_digit_head {e : List Char}
    (h : ∀ c ∈ e, 97 ≤ c.toNat ∧ c.toNat ≤ 122) : parseSignedDigits e = none := by
  unfold parseSignedDigits
  split
  · exact absurd (h '+' (by simp)) (by decide)
  · exact absurd (h '-' (by simp)) (by decide)
  · cases e with
    | nil => simp
    | cons c t =>
      rw [if_neg]
      rintro ⟨-, hall⟩
      have hc := List.all_eq_true.mp hall c (List.mem_cons_self c t)
      have := h c (List.mem_cons_self c t)
      simp only [isDigitChar, decide_eq_true_eq] at hc
      omega

/-- `Number` of a nonempty all-lowercase-letter string is NaN. -/
theorem jsNumberIntVal_alpha_none {l : List Char} (h1 : l ≠ [])
    (h2 : ∀ c ∈ l, alphaLower c = true) : jsNumberIntVal l = none := by
  have htoNat : ∀ c ∈ l, 97 ≤ c.toNat ∧ c.toNat ≤ 122 := by
    intro c hc
    have := h2 c hc
    simpa [alphaLower] using this
  have htrim : trimChars l = l :=
    trimChars_eq_self (fun c hc => isJsSpace_false_of_range (by have := htoNat c hc; omega))
  obtain ⟨c0, r0, rfl⟩ := List.exists_cons_of_ne_nil h1
  have hc0 := htoNat c0 (List.mem_cons_self c0 r0)
  have hradix : radixTag (c0 :: r0) = none := by
    unfold radixTag
    split <;> first
      | rfl
      | (rename_i he
         have h00 : c0 = '0' := by injection he
         subst h00
         simp at hc0)
  have hsign : stripNumSign (c0 :: r0) = (false, c0 :: r0) := by
    refine stripNumSign_eq_self (fun c hc => ?_)
    have := htoNat c hc
    constructor <;> (intro he; subst he; simp_all)
  have hinf : (c0 :: r0) ≠ "Infinity".data := by
    intro he
    have : 97 ≤ ('I' : Char).toNat ∧ ('I' : Char).toNat ≤ 122 :=
      htoNat 'I' (by rw [he]; decide)
    simp at this
  have hdec : parseDec (c0 :: r0) = none := by
    unfold parseDec
    rcases hsnd : (breakAtExp (c0 :: r0)).2 with - | e
    · have hfst : (breakAtExp (c0 :: r0)).1 = c0 :: r0 := breakAtExp_fst_of_none hsnd
      simp only [hsnd, hfst]
      have hs : splitOnChar '.' (c0 :: r0) = [c0 :: r0] := by
        refine splitOnChar_no_sep '.' _ (fun hm => ?_)
        have := htoNat '.' hm
        simp at this
      simp only [hs]
      rw [if_neg]
      rintro ⟨-, hall⟩
      have := List.all_eq_true.mp hall c0 (List.mem_cons_self c0 r0)
      simp only [isDigitChar, decide_eq_true_eq] at this
      omega
    · obtain ⟨m, -, hr⟩ :=
        breakAtExp_decomp (l := c0 :: r0) (p := (breakAtExp (c0 :: r0)).1) (e := e) (by
          rw [show breakAtExp (c0 :: r0) =
            ((breakAtExp (c0 :: r0)).1, (breakAtExp (c0 :: r0)).2) from rfl, hsnd])
      have hesub : ∀ c ∈ e, 97 ≤ c.toNat ∧ c.toNat ≤ 122 := by
        intro c hc
        exact htoNat c (by rw [hr]; exact List.mem_append_right _ (List.mem_cons_of_mem m hc))
      simp only [hsnd, parseSignedDigits_no_digit_head hesub]
  unfold jsNumberIntVal
  rw [htrim]
  simp only [hradix]
  unfold decIntVal
  rw [hsign]
  simp only [if_neg hinf, hdec]

theorem jsNumberOctet_alpha_none {l : List Char} (h1 : l ≠ [])
    (h2 : ∀ c ∈ l, alphaLower c = true) : jsNumberOctet l = none := by
  unfold jsNumberOctet
  rw [jsNumberIntVal_alpha_none h1 h2]

theorem jsNumberOctet_digits {s : List Char} (h : DigitsLabel s)
    (hb : decValue s ≤ 255) : jsNumberOctet s = some (decValue s) := by
  unfold jsNumberOctet
  rw [jsNumberIntVal_digits h.1 (List.all_eq_true.mpr h.2)]
  have h0 : (0 : Int) ≤ ((decValue s : Nat) : Int) := Int.ofNat_nonneg _
  have h255 : ((decValue s : Nat) : Int) ≤ 255 := by exact_mod_cast hb
  simp [h0, h255]

theorem octetsOf_none_of_mem {parts : List (List Char)} {x : List Char}
    (hx : x ∈ parts) (hn : jsNumberOctet x = none) : octetsOf parts = none := by
  induction parts with
  | nil => exact absurd hx (by simp)
  | cons p rest ih =>
    rcases List.mem_cons.mp hx with rfl | hm
    · unfold octetsOf
      rw [hn]
    · unfold octetsOf
      rw [ih hm]
      rcases jsNumberOctet p with - | v <;> rfl

theorem dottedQuad_charset {h s1 s2 s3 s4 : List Char} (hq : DottedQuad h s1 s2 s3 s4) :
    ∀ c ∈ h, isDigitChar c = true ∨ c = '.' := by
  obtain ⟨rfl, d1, d2, d3, d4, -, -, -, -⟩ := hq
  intro c hc
  simp only [List.mem_append, List.mem_cons] at hc
  rcases hc with m | rfl | m | rfl | m | rfl | m
  · exact Or.inl (d1.2 c m)
  · exact Or.inr rfl
  · exact Or.inl (d2.2 c m)
  · exact Or.inr rfl
  · exact Or.inl (d3.2 c m)
  · exact Or.inr rfl
  · exact Or.inl (d4.2 c m)

theorem normal_of_charset {x : List Char}
    (h : ∀ c ∈ x, lowerChar c = c ∧ isJsSpace c = false) :
    trimChars (lowerStr x) = x := by
  rw [lowerStr_eq_self (fun c hc => (h c hc).1), trimChars_eq_self (fun c hc => (h c hc).2)]

theorem blockedQuadValsB_iff (a b : Nat) :
    blockedQuadValsB a b = true ↔ QuadBlockedSpec a b := by
  simp [blockedQuadValsB, QuadBlockedSpec]

/-- Common part of the two dotted-quad directions: the guard reduces to the
blocked-first-octets test on the four parsed octet values. -/
theorem isPrivateHostnameL_quad {h s1 s2 s3 s4 : List Char}
    (hq : DottedQuad h s1 s2 s3 s4) :
    isPrivateHostnameL h = blockedQuadValsB (decValue s1) (decValue s2) := by
  have hcs := dottedQuad_charset hq
  have hnorm : trimChars (lowerStr h) = h := normal_of_charset (fun c hc =>
    ⟨digit_or_dot_lower (hcs c hc), digit_or_dot_not_space (hcs c hc)⟩)
  have hnotmem : ∀ c : Char, isDigitChar c = false → c ≠ '.' → c ∉ h := by
    intro c hc1 hc2 hmem
    rcases hcs c hmem with hd | rfl
    · rw [hc1] at hd; exact absurd hd (by simp)
    · exact hc2 rfl
  have hbr : stripBrackets h = h := stripBrackets_eq_self (hnotmem '[' (by decide) (by decide))
  obtain ⟨heq, d1, d2, d3, d4, b1, b2, b3, b4⟩ := hq
  obtain ⟨c0, t0, hs1⟩ := List.exists_cons_of_ne_nil d1.1
  have hc0d : isDigitChar c0 = true := d1.2 c0 (by rw [hs1]; exact List.mem_cons_self c0 t0)
  have hhead : h.head? = some c0 := by rw [heq, hs1]; rfl
  have hc0f : lowerChar c0 ≠ 'f' := by
    rw [lowerChar_of_digit hc0d]
    intro he
    rw [he] at hc0d
    exact absurd hc0d (by decide)
  have hred := isPrivateHostnameL_reduce hnorm hbr
    (ne_of_mem_not_mem (show 'l' ∈ "localhost".data by decide)
      (hnotmem 'l' (by decide) (by decide)))
    (ne_of_mem_not_mem (show 'm' ∈ "metadata.google.internal".data by decide)
      (hnotmem 'm' (by decide) (by decide)))
    (ne_of_mem_not_mem (show ':' ∈ "::1".data by decide)
      (hnotmem ':' (by decide) (by decide)))
    (ne_of_mem_not_mem (show ':' ∈ "0:0:0:0:0:0:0:1".data by decide)
      (hnotmem ':' (by decide) (by decide)))
  rw [hred, fcRegexTest_false_of_head hhead hc0f, feRegexTest_false_of_head hhead hc0f]
  simp only [Bool.false_eq_true, if_false]
  have hdot : ∀ {s : List Char}, DigitsLabel s → '.' ∉ s := by
    intro s hs m
    exact absurd (hs.2 '.' m) (by decide)
  have hsplit : splitOnChar '.' h = [s1, s2, s3, s4] := by
    rw [heq, splitOnChar_append_cons _ _ _ (hdot d1), splitOnChar_append_cons _ _ _ (hdot d2),
      splitOnChar_append_cons _ _ _ (hdot d3), splitOnChar_no_sep _ _ (hdot d4)]
  unfold ipv4Check
  rw [hsplit,
    if_pos (show ([s1, s2, s3, s4] : List (List Char)).length = 4 from rfl)]
  simp only [octetsOf, jsNumberOctet_digits d1 b1, jsNumberOctet_digits d2 b2,
    jsNumberOctet_digits d3 b3, jsNumberOctet_digits d4 b4]

/-- §4.1, blocked dotted quads: the guard accepts them. -/
theorem private_of_quadBlocked {h s1 s2 s3 s4 : List Char}
    (hq : DottedQuad h s1 s2 s3 s4)
    (hb : QuadBlockedSpec (decValue s1) (decValue s2)) :
    isPrivateHostnameL h = true := by
  rw [isPrivateHostnameL_quad hq]
  exact (blockedQuadValsB_iff _ _).mpr hb

/-- §4.1, public dotted quads: the guard lets them through. -/
theorem false_of_publicQuad {h s1 s2 s3 s4 : List Char}
    (hq : DottedQuad h s1 s2 s3 s4)
    (hb : ¬QuadBlockedSpec (decValue s1) (decValue s2)) :
    isPrivateHostnameL h = false := by
  rw [isPrivateHostnameL_quad hq]
  exact Bool.eq_false_iff.mpr (fun hv => hb ((blockedQuadValsB_iff _ _).mp hv))

theorem ipv6Chars_toNat {x : List Char} (hx : Ipv6Chars x) :
    ∀ c ∈ x, (48 ≤ c.toNat ∧ c.toNat ≤ 57) ∨ (97 ≤ c.toNat ∧ c.toNat ≤ 102) ∨
      c.toNat = 58 := by
  intro c hc
  rcases hx c hc with hh | rfl
  · simp only [isHexDigitLower, isDigitChar, decide_eq_true_eq] at hh
    rcases hh with h | h
    · exact Or.inl h
    · exact Or.inr (Or.inl h)
  · exact Or.inr (Or.inr rfl)

/-- Normalisation facts shared by both textual IPv6 range cases. -/
theorem ipv6_reduce {x : List Char} (hx : Ipv6Chars x) (hhd : x.head? = some 'f') :
    isPrivateHostnameL x =
      (if fcRegexTest x then true else if feRegexTest x then true else ipv4Check x) := by
  have hrange := ipv6Chars_toNat hx
  have hnotmem : ∀ c : Char, (c.toNat < 48 ∨ (57 < c.toNat ∧ c.toNat ≠ 58 ∧ c.toNat < 97) ∨
      102 < c.toNat) → c ∉ x := by
    intro c hc hmem
    have := hrange c hmem
    omega
  refine isPrivateHostnameL_reduce
    (normal_of_charset (fun c hc => ⟨?_, ?_⟩)) (stripBrackets_eq_self (hnotmem '[' (by decide)))
    (ne_of_mem_not_mem (show 'l' ∈ "localhost".data by decide) (hnotmem 'l' (by decide)))
    (ne_of_mem_not_mem (show '.' ∈ "metadata.google.internal".data by decide)
      (hnotmem '.' (by decide)))
    ?_ ?_
  · exact lowerChar_eq_self (by have := hrange c hc; omega)
  · exact isJsSpace_false_of_range (by have := hrange c hc; omega)
  · intro he
    rw [he] at hhd
    exact absurd hhd (by decide)
  · intro he
    rw [he] at hhd
    exact absurd hhd (by decide)

/-- §4.1, IPv6 unique-local `fc00::/7`: the guard accepts it. -/
theorem private_of_uniqueLocal {x : List Char} (hu : UniqueLocalAddr x) :
    isPrivateHostnameL x = true := by
  obtain ⟨hchars, c1, c2, c3, rest, hc1, hc2, hc3, rfl⟩ := hu
  rw [ipv6_reduce hchars rfl]
  have hfc : fcRegexTest ('f' :: c1 :: c2 :: c3 :: ':' :: rest) = true := by
    unfold fcRegexTest
    refine decide_eq_true ⟨by decide, ?_, ?_, ?_, rfl⟩
    · rcases hc1 with rfl | rfl
      · exact Or.inl (by decide)
      · exact Or.inr (by decide)
    · rw [lowerChar_of_hexLower hc2]; exact hc2
    · rw [lowerChar_of_hexLower hc3]; exact hc3
  rw [hfc]
  rfl

/-- §4.1, IPv6 link-local `fe80::/10`: the guard accepts it. -/
theorem private_of_linkLocal {x : List Char} (hu : LinkLocalAddr x) :
    isPrivateHostnameL x = true := by
  obtain ⟨hchars, c2, c3, rest, hc2, hc3, rfl⟩ := hu
  rw [ipv6_reduce hchars rfl]
  have hfc : fcRegexTest ('f' :: 'e' :: c2 :: c3 :: ':' :: rest) = false := by
    unfold fcRegexTest
    simp only [decide_eq_false_iff_not]
    rintro ⟨-, hcd, -⟩
    rcases hcd with he | he <;> exact absurd he (by decide)
  have hfe : feRegexTest ('f' :: 'e' :: c2 :: c3 :: ':' :: rest) = true := by
    unfold feRegexTest
    refine decide_eq_true ⟨by decide, by decide, ?_, ?_, rfl⟩
    · rcases hc2 with rfl | rfl | rfl | rfl
      · exact Or.inl (by decide)
      · exact Or.inr (Or.inl (by decide))
      · exact Or.inr (Or.inr (Or.inl (by decide)))
      · exact Or.inr (Or.inr (Or.inr (by decide)))
    · rw [lowerChar_of_hexLower hc3]; exact hc3
  rw [hfc, hfe]
  rfl

/-- §4.1, public DNS names: the guard lets them through. -/
theorem false_of_publicDnsL {x : List Char}
    (hcs : ∀ c ∈ x, dnsChar c = true ∨ c = '.')
    (hlbl : ∀ lbl ∈ splitOnChar '.' x, lbl ≠ [])
    (hlast : ∃ lst, (splitOnChar '.' x).getLast? = some lst ∧
      ∀ c ∈ lst, alphaLower c = true)
    (h1 : x ≠ "localhost".data) (h2 : x ≠ "metadata.google.internal".data) :
    isPrivateHostnameL x = false := by
  have hrange : ∀ c ∈ x, c.toNat = 45 ∨ c.toNat = 46 ∨ (48 ≤ c.toNat ∧ c.toNat ≤ 57) ∨
      (97 ≤ c.toNat ∧ c.toNat ≤ 122) := by
    intro c hc
    rcases hcs c hc with hd | rfl
    · simp only [dnsChar, alphaLower, isDigitChar, decide_eq_true_eq] at hd
      rcases hd with h | h | rfl
      · exact Or.inr (Or.inr (Or.inr h))
      · exact Or.inr (Or.inr (Or.inl h))
      · exact Or.inl rfl
    · exact Or.inr (Or.inl rfl)
  have hnotmem : ∀ c : Char, (c.toNat < 45 ∨ c.toNat = 47 ∨ (57 < c.toNat ∧ c.toNat < 97) ∨
      122 < c.toNat) → c ∉ x := by
    intro c hc hmem
    have := hrange c hmem
    omega
  have hred := isPrivateHostnameL_reduce
    (normal_of_charset (fun c hc =>
      ⟨lowerChar_eq_self (by have := hrange c hc; omega),
       isJsSpace_false_of_range (by have := hrange c hc; omega)⟩))
    (stripBrackets_eq_self (hnotmem '[' (by decide))) h1 h2
    (ne_of_mem_not_mem (show ':' ∈ "::1".data by decide) (hnotmem ':' (by decide)))
    (ne_of_mem_not_mem (show ':' ∈ "0:0:0:0:0:0:0:1".data by decide)
      (hnotmem ':' (by decide)))
  have hfc : fcRegexTest x = false := by
    rcases hv : fcRegexTest x with - | -
    · rfl
    · exact absurd (fcRegexTest_colon hv) (hnotmem ':' (by decide))
  have hfe : feRegexTest x = false := by
    rcases hv : feRegexTest x with - | -
    · rfl
    · exact absurd (feRegexTest_colon hv) (hnotmem ':' (by decide))
  rw [hred, hfc, hfe]
  simp only [Bool.false_eq_true, if_false]
  obtain ⟨lst, hl, halpha⟩ := hlast
  have hlmem : lst ∈ splitOnChar '.' x := mem_of_getLast?_eq hl
  have hlne : lst ≠ [] := hlbl lst hlmem
  have hnone : jsNumberOctet lst = none := jsNumberOctet_alpha_none hlne halpha
  unfold ipv4Check
  by_cases hlen : (splitOnChar '.' x).length = 4
  · rw [if_pos hlen, octetsOf_none_of_mem hlmem hnone]
  · rw [if_neg hlen]

/-! ## Claim C1 -/

/-- C1: `isPrivateHostname` classifies hostnames per §4.1 — it returns true
for every member of the blocked classes (the literal `localhost`, the cloud
metadata name, dotted quads in 127/8, 0/8, 10/8, 172.16/12, 192.168/16,
169.254/16, IPv6 loopback `::1` bracketed or not, and the textual
unique-local `fc00::/7` and link-local `fe80::/10` prefixes), and false for
syntactically valid public hostnames and addresses — dotted quads outside
every blocked range and public DNS names — in particular `93.184.216.34` and
`example.com`. -/
theorem c1_isPrivateHostname_blocklist :
    (∀ h : String, BlockedHostnameSpec h → isPrivateHostname h = true) ∧
    (∀ h : String, PublicQuad h → isPrivateHostname h = false) ∧
    (∀ h : String, PublicDnsName h → isPrivateHostname h = false) ∧
    isPrivateHostname "93.184.216.34" = false ∧
    isPrivateHostname "example.com" = false := by
  refine ⟨?_, ?_, ?_, by decide, by decide⟩
  · intro h hb
    rcases hb with rfl | rfl | ⟨s1, s2, s3, s4, hq, hspec⟩ | rfl | rfl | hu | hl
    · decide
    · decide
    · exact private_of_quadBlocked hq hspec
    · decide
    · decide
    · exact private_of_uniqueLocal hu
    · exact private_of_linkLocal hl
  · rintro h ⟨s1, s2, s3, s4, hq, hnb⟩
    exact false_of_publicQuad hq hnb
  · rintro h ⟨hcs, hlbl, hlast, hne1, hne2⟩
    exact false_of_publicDnsL hcs hlbl hlast
      (fun e => hne1 (String.ext e)) (fun e => hne2 (String.ext e))

/-- Witness for C1 at concrete inputs: a blocked RFC1918 quad and a public
quad. -/
theorem c1_isPrivateHostname_blocklist_witness :
    isPrivateHostname "10.1.2.3" = true ∧ isPrivateHostname "203.0.113.9" = false := by
  constructor
  · exact c1_isPrivateHostname_blocklist.1 "10.1.2.3"
      (Or.inr (Or.inr (Or.inl ⟨"10".data, "1".data, "2".data, "3".data,
        ⟨by decide, ⟨by decide, by decide⟩, ⟨by decide, by decide⟩,
         ⟨by decide, by decide⟩, ⟨by decide, by decide⟩,
         by decide, by decide, by decide, by decide⟩, by decide⟩)))
  · exact c1_isPrivateHostname_blocklist.2.1 "203.0.113.9"
      ⟨"203".data, "0".data, "113".data, "9".data,
        ⟨by decide, ⟨by decide, by decide⟩, ⟨by decide, by decide⟩,
         ⟨by decide, by decide⟩, ⟨by decide, by decide⟩,
         by decide, by decide, by decide, by decide⟩, by decide⟩

/-! ## Claim C6: package-id derivation -/

theorem splitOnChar_joinDot (ls : List (List Char)) (hne : ls ≠ [])
    (h : ∀ l ∈ ls, '.' ∉ l) : splitOnChar '.' (joinDot ls) = ls := by
  induction ls with
  | nil => exact absurd rfl hne
  | cons l rest ih =>
    cases rest with
    | nil => exact splitOnChar_no_sep '.' l (h l (List.mem_cons_self l []))
    | cons m rest2 =>
      rw [show joinDot (l :: m :: rest2) = l ++ '.' :: joinDot (m :: rest2) from rfl,
        splitOnChar_append_cons '.' l _ (h l (List.mem_cons_self l _)),
        ih (by simp) (fun x hx => h x (List.mem_cons_of_mem l hx))]

theorem pkgLabelOk_cleanLabel (l : List Char) : pkgLabelOk (cleanLabel l) = true := by
  unfold cleanLabel
  have hmem : ∀ c ∈ (lowerStr l).filter pkgChar, pkgChar c = true :=
    fun c hc => (List.mem_filter.mp hc).2
  rcases hs : (lowerStr l).filter pkgChar with - | ⟨c, rest⟩
  · decide
  · have hc : pkgChar c = true := hmem c (by rw [hs]; exact List.mem_cons_self c rest)
    have hrest : rest.all pkgChar = true := List.all_eq_true.mpr
      (fun x hx => hmem x (by rw [hs]; exact List.mem_cons_of_mem c hx))
    rw [show ensureLetterHead (c :: rest) =
      if alphaLower c = true then c :: rest else 'a' :: c :: rest from rfl]
    by_cases ha : alphaLower c = true
    · rw [if_pos ha]
      unfold pkgLabelOk
      exact decide_eq_true ⟨ha, hrest⟩
    · rw [if_neg ha]
      unfold pkgLabelOk
      refine decide_eq_true ⟨by decide, ?_⟩
      simp only [List.all_cons, hc, hrest, Bool.and_self]

theorem pkgLabelOk_chars {l : List Char} (h : pkgLabelOk l = true) :
    ∀ c ∈ l, pkgChar c = true := by
  unfold pkgLabelOk at h
  cases l with
  | nil => exact absurd h (by simp)
  | cons c rest =>
    simp only [decide_eq_true_eq] at h
    intro x hx
    rcases List.mem_cons.mp hx with rfl | hm
    · exact decide_eq_true (Or.inl h.1)
    · exact List.all_eq_true.mp h.2 x hm

theorem pkgLabelOk_ne_nil {l : List Char} (h : pkgLabelOk l = true) : l ≠ [] := by
  intro he
  rw [he] at h
  exact absurd h (by decide)

theorem pkgChar_ne_dot {c : Char} (h : pkgChar c = true) : c ≠ '.' := by
  simp only [pkgChar, alphaLower, isDigitChar, decide_eq_true_eq] at h
  intro he
  subst he
  rcases h with h | h | h <;> simp_all

theorem padToThree_length (ls : List (List Char)) : 3 ≤ (padToThree ls).length := by
  unfold padToThree
  rw [List.length_append, List.length_replicate]
  omega

theorem padToThree_mem {ls : List (List Char)} {x : List Char}
    (h : x ∈ padToThree ls) : x ∈ ls ∨ x = "app".data := by
  rcases List.mem_append.mp h with hm | hm
  · exact Or.inl hm
  · exact Or.inr (List.eq_of_mem_replicate hm)

theorem derivePackageIdCore_valid (hst : List Char) :
    pkgIdRegexTest (derivePackageIdCore hst) = true := by
  unfold derivePackageIdCore
  set labels := padToThree
    (((((splitOnChar '.' hst).filter (fun p => p ≠ [])).reverse).map cleanLabel)) with hlab
  have hok : ∀ l ∈ labels, pkgLabelOk l = true := by
    intro l hl
    rcases padToThree_mem hl with hm | rfl
    · obtain ⟨p, -, rfl⟩ := List.mem_map.mp hm
      exact pkgLabelOk_cleanLabel p
    · decide
  have hlen : 3 ≤ labels.length := padToThree_length _
  have hne : labels ≠ [] := by
    intro he
    rw [he] at hlen
    exact absurd hlen (by decide)
  have hnodot : ∀ l ∈ labels, '.' ∉ l :=
    fun l hl hm => pkgChar_ne_dot (pkgLabelOk_chars (hok l hl) '.' hm) rfl
  unfold pkgIdRegexTest
  rw [splitOnChar_joinDot labels hne hnodot]
  exact decide_eq_true ⟨hlen, List.all_eq_true.mpr hok⟩

/-- C6: `derivePackageId` reverses the hostname labels, cleans each to
`[a-z][a-z0-9_]*`, pads with `app` to at least three labels and joins with
dots; every derived id matches the package-id regex, and the two documented
examples hold. -/
theorem c6_derivePackageId_spec :
    (∀ hst : List Char, pkgIdRegexTest (derivePackageIdCore hst) = true) ∧
    (∀ u p : String, derivePackageId u = some p → pkgIdRegexTest p.data = true) ∧
    derivePackageId "https://my-app.example.com" = some "com.example.myapp" ∧
    derivePackageId "https://example.com" = some "com.example.app" := by
  refine ⟨derivePackageIdCore_valid, ?_, by decide, by decide⟩
  intro u p hp
  unfold derivePackageId at hp
  rcases hu : urlHostname u with - | h
  · rw [hu] at hp
    exact absurd hp (by simp)
  · rw [hu] at hp
    simp only [Option.map_some', Option.some.injEq] at hp
    rw [← hp]
    exact derivePackageIdCore_valid h.data

/-- Witness for C6 on a concrete derived id. -/
theorem c6_derivePackageId_spec_witness :
    pkgIdRegexTest "com.example.app".data = true := by
  exact c6_derivePackageId_spec.2.1 "https://example.com" "com.example.app" (by decide)

/-! ## Claim C5: build token verification -/

theorem lastIndexOfChar_not_mem {c : Char} {l : List Char} (h : c ∉ l) :
    lastIndexOfChar c l = none := by
  induction l with
  | nil => rfl
  | cons x r ih =>
    have hx : x ≠ c := fun e => h (e ▸ List.mem_cons_self x r)
    have hr : c ∉ r := fun m => h (List.mem_cons_of_mem x m)
    unfold lastIndexOfChar
    rw [ih hr, if_neg hx]

theorem lastIndexOfChar_append {c : Char} (a b : List Char) (hb : c ∉ b) :
    lastIndexOfChar c (a ++ c :: b) = some a.length := by
  induction a with
  | nil =>
    rw [List.nil_append]
    unfold lastIndexOfChar
    rw [lastIndexOfChar_not_mem hb]
    simp
  | cons x r ih =>
    rw [List.cons_append]
    unfold lastIndexOfChar
    rw [ih]
    rfl

theorem hexLower_ne_dot {c : Char} (h : isHexDigitLower c = true) : c ≠ '.' := by
  simp only [isHexDigitLower, isDigitChar, decide_eq_true_eq] at h
  intro he
  subst he
  rcases h with h | h <;> simp_all

theorem hexCharVal_of_lower {c : Char} (h : isHexDigitLower c = true) :
    ∃ v, hexCharVal c = some v ∧ v < 16 := by
  simp only [isHexDigitLower, isDigitChar, decide_eq_true_eq] at h
  unfold hexCharVal
  rcases h with h | h
  · rw [if_pos (by simp [isDigitChar]; omega)]
    exact ⟨digitVal c, rfl, by unfold digitVal; omega⟩
  · rw [if_neg (by simp [isDigitChar]; omega), if_pos (by omega)]
    exact ⟨c.toNat - 97 + 10, rfl, by omega⟩

theorem hexDecodeNode_length : ∀ (l : List Char),
    (∀ c ∈ l, isHexDigitLower c = true) → (hexDecodeNode l).length = l.length / 2
  | [], _ => by simp [hexDecodeNode]
  | [c], _ => by simp [hexDecodeNode]
  | c1 :: c2 :: r, h => by
    obtain ⟨v1, hv1, -⟩ := hexCharVal_of_lower (h c1 (by simp))
    obtain ⟨v2, hv2, -⟩ := hexCharVal_of_lower (h c2 (by simp))
    have ih := hexDecodeNode_length r
      (fun c hc => h c (List.mem_cons_of_mem c1 (List.mem_cons_of_mem c2 hc)))
    unfold hexDecodeNode
    rw [hv1, hv2]
    simp only [List.length_cons, ih]
    omega

/-- `'.'` cannot occur in a well-formed digest. -/
theorem hmac_no_dot {hmac : List Char → List Char} (hw : HmacWellFormed hmac)
    (s : List Char) : '.' ∉ hmac s :=
  fun hm => hexLower_ne_dot ((hw s).2 '.' hm) rfl

theorem digitVal_char_ofNat {m : Nat} (hm : m < 10) :
    digitVal (Char.ofNat (48 + m)) = m := by
  interval_cases m <;> decide

theorem isDigitChar_char_ofNat {m : Nat} (hm : m < 10) :
    isDigitChar (Char.ofNat (48 + m)) = true := by
  interval_cases m <;> decide

theorem natDecRepr_digits (n : Nat) : ∀ c ∈ natDecRepr n, isDigitChar c = true := by
  induction n using Nat.strong_induction_on with
  | _ n ih =>
    intro c hc
    rw [natDecRepr] at hc
    by_cases h : n < 10
    · rw [dif_pos h] at hc
      simp only [List.mem_singleton] at hc
      subst hc
      exact isDigitChar_char_ofNat h
    · rw [dif_neg h] at hc
      rcases List.mem_append.mp hc with hm | hm
      · exact ih (n / 10) (Nat.div_lt_self (by omega) (by omega)) c hm
      · simp only [List.mem_singleton] at hm
        subst hm
        exact isDigitChar_char_ofNat (Nat.mod_lt n (by omega))

theorem natDecRepr_ne_nil (n : Nat) : natDecRepr n ≠ [] := by
  rw [natDecRepr]
  by_cases h : n < 10
  · rw [dif_pos h]; simp
  · rw [dif_neg h]; simp

theorem decValue_append_singleton (a : List Char) (c : Char) :
    decValue (a ++ [c]) = decValue a * 10 + digitVal c := by
  unfold decValue
  rw [List.foldl_append]
  rfl

theorem decValue_natDecRepr (n : Nat) : decValue (natDecRepr n) = n := by
  induction n using Nat.strong_induction_on with
  | _ n ih =>
    rw [natDecRepr]
    by_cases h : n < 10
    · rw [dif_pos h]
      show decValue ([] ++ [Char.ofNat (48 + n)]) = n
      rw [decValue_append_singleton, digitVal_char_ofNat h]
      simp [decValue]
    · rw [dif_neg h]
      rw [decValue_append_singleton, digitVal_char_ofNat (Nat.mod_lt n (by omega)),
        ih (n / 10) (Nat.div_lt_self (by omega) (by omega))]
      omega

/-- `Number` of the rendered timestamp is the timestamp. -/
theorem jsNumberIntVal_natDecRepr (n : Nat) :
    jsNumberIntVal (natDecRepr n) = some ((n : Nat) : Int) := by
  rw [jsNumberIntVal_digits (natDecRepr_ne_nil n)
    (List.all_eq_true.mpr (natDecRepr_digits n)), decValue_natDecRepr]

/-- The verifier on a token split as `ts ++ '.' ++ sig` with a dot-free
signature: the timestamp, freshness, length and comparison checks in source
order. -/
theorem verifyTokenM_parts (hmac : List Char → List Char) (now : Nat)
    (ts sig : List Char) (hsig : '.' ∉ sig) :
    verifyTokenM hmac now (ts ++ '.' :: sig) =
      (match jsNumberIntVal ts with
       | none => some false
       | some tsNum =>
         if (now : Int) - tsNum > 600000 then some false
         else if tsNum > (now : Int) + 60000 then some false
         else if sig.length ≠ (hmac ts).length then some false
         else timingSafeEqualB (hexDecodeNode (hmac ts)) (hexDecodeNode sig)) := by
  unfold verifyTokenM
  rw [lastIndexOfChar_append ts sig hsig]
  have htake : (ts ++ '.' :: sig).take ts.length = ts := List.take_left ts ('.' :: sig)
  have hdrop : (ts ++ '.' :: sig).drop (ts.length + 1) = sig := by
    rw [List.drop_append]
    rfl
  simp only [htake, hdrop]

/-- The verifier on a token whose timestamp part is a rendered `Nat`. -/
theorem verifyTokenM_ts (hmac : List Char → List Char) (now t : Nat)
    (sig : List Char) (hsig : '.' ∉ sig) :
    verifyTokenM hmac now (natDecRepr t ++ '.' :: sig) =
      (if (now : Int) - (t : Int) > 600000 then some false
       else if (t : Int) > (now : Int) + 60000 then some false
       else if sig.length ≠ (hmac (natDecRepr t)).length then some false
       else timingSafeEqualB (hexDecodeNode (hmac (natDecRepr t))) (hexDecodeNode sig)) := by
  rw [verifyTokenM_parts hmac now _ _ hsig, jsNumberIntVal_natDecRepr]

/-- C5 (amended): `verifyToken` splits on the last dot, requires an integer
timestamp, rejects stale (> 10 min) and future (> 1 min) timestamps, rejects
digests of the wrong length before comparing, accepts a just-issued token,
and otherwise returns the constant-time comparison of the *hex-decoded*
digests — rejecting any same-length valid-hex signature whose byte value
differs; a same-length signature containing a non-hex character makes the
byte buffers differ in length and the comparison throws (`none`) instead of
returning a boolean. -/
theorem c5_verifyToken_amended :
    (∀ (hmac : List Char → List Char) (now : Nat) (token : List Char),
      lastIndexOfChar '.' token = none → verifyTokenM hmac now token = some false) ∧
    (∀ (hmac : List Char → List Char) (now : Nat), HmacWellFormed hmac →
      verifyTokenM hmac now (generateTokenM hmac now) = some true) ∧
    (∀ (hmac : List Char → List Char) (now t : Nat), HmacWellFormed hmac →
      (now : Int) - t > 600000 →
      verifyTokenM hmac now (generateTokenM hmac t) = some false) ∧
    (∀ (hmac : List Char → List Char) (now t : Nat), HmacWellFormed hmac →
      (t : Int) > (now : Int) + 60000 →
      verifyTokenM hmac now (generateTokenM hmac t) = some false) ∧
    (∀ (hmac : List Char → List Char) (now t : Nat) (sig : List Char),
      HmacWellFormed hmac → '.' ∉ sig →
      ¬((now : Int) - t > 600000) → ¬((t : Int) > (now : Int) + 60000) →
      sig.length ≠ 64 →
      verifyTokenM hmac now (natDecRepr t ++ '.' :: sig) = some false) ∧
    (∀ (hmac : List Char → List Char) (now t : Nat) (sig : List Char),
      HmacWellFormed hmac → '.' ∉ sig →
      ¬((now : Int) - t > 600000) → ¬((t : Int) > (now : Int) + 60000) →
      sig.length = 64 → (∀ c ∈ sig, isHexDigitLower c = true) →
      hexDecodeNode sig ≠ hexDecodeNode (hmac (natDecRepr t)) →
      verifyTokenM hmac now (natDecRepr t ++ '.' :: sig) = some false) ∧
    (∀ (hmac : List Char → List Char) (now t : Nat) (sig : List Char),
      HmacWellFormed hmac → '.' ∉ sig →
      ¬((now : Int) - t > 600000) → ¬((t : Int) > (now : Int) + 60000) →
      sig.length = 64 → (hexDecodeNode sig).length ≠ 32 →
      verifyTokenM hmac now (natDecRepr t ++ '.' :: sig) = none) := by
  refine ⟨?_, ?_, ?_, ?_, ?_, ?_, ?_⟩
  · intro hmac now token hnone
    unfold verifyTokenM
    rw [hnone]
  · intro hmac now hw
    unfold generateTokenM
    rw [verifyTokenM_ts hmac now now _ (hmac_no_dot hw _)]
    rw [if_neg (by omega), if_neg (by omega), if_neg (by omega)]
    unfold timingSafeEqualB
    rw [if_pos rfl]
    simp
  · intro hmac now t hw hstale
    unfold generateTokenM
    rw [verifyTokenM_ts hmac now t _ (hmac_no_dot hw _)]
    rw [if_pos hstale]
  · intro hmac now t hw hfut
    unfold generateTokenM
    rw [verifyTokenM_ts hmac now t _ (hmac_no_dot hw _)]
    rw [if_neg (by omega), if_pos hfut]
  · intro hmac now t sig hw hdot hstale hfut hlen
    rw [verifyTokenM_ts hmac now t sig hdot]
    rw [if_neg hstale, if_neg hfut, if_pos (by rw [(hw (natDecRepr t)).1]; exact hlen)]
  · intro hmac now t sig hw hdot hstale hfut hlen hhex hne
    rw [verifyTokenM_ts hmac now t sig hdot]
    rw [if_neg hstale, if_neg hfut, if_neg (by rw [(hw (natDecRepr t)).1, hlen]; omega)]
    unfold timingSafeEqualB
    rw [if_pos (by
      rw [hexDecodeNode_length sig hhex,
        hexDecodeNode_length (hmac (natDecRepr t)) (hw (natDecRepr t)).2,
        (hw (natDecRepr t)).1, hlen])]
    simp only [Option.some.injEq, decide_eq_false_iff_not]
    exact fun he => hne (by rw [he])
  · intro hmac now t sig hw hdot hstale hfut hlen hblen
    rw [verifyTokenM_ts hmac now t sig hdot]
    rw [if_neg hstale, if_neg hfut, if_neg (by rw [(hw (natDecRepr t)).1, hlen]; omega)]
    unfold timingSafeEqualB
    rw [if_neg (by
      rw [hexDecodeNode_length (hmac (natDecRepr t)) (hw (natDecRepr t)).2,
        (hw (natDecRepr t)).1]
      omega)]

/-- The constant digest function is well formed. -/
theorem hmacConst_wellFormed : HmacWellFormed hmacConst := by
  intro s
  refine ⟨by simp [hmacConst], ?_⟩
  intro c hc
  rw [List.eq_of_mem_replicate hc]
  decide

/-- Witness for C5: a just-issued token verifies, an 11-minute-old token and
a tampered valid-hex signature are rejected, at the concrete digest
function. -/
theorem c5_verifyToken_amended_witness :
    verifyTokenM hmacConst 1000000 (generateTokenM hmacConst 1000000) = some true ∧
    verifyTokenM hmacConst 1660001 (generateTokenM hmacConst 1000000) = some false ∧
    verifyTokenM hmacConst 1000000 (natDecRepr 1000000 ++ '.' :: List.replicate 64 '1') =
      some false := by
  refine ⟨c5_verifyToken_amended.2.1 hmacConst 1000000 hmacConst_wellFormed,
    c5_verifyToken_amended.2.2.1 hmacConst 1660001 1000000 hmacConst_wellFormed
      (by omega), ?_⟩
  exact c5_verifyToken_amended.2.2.2.2.2.1 hmacConst 1000000 1000000
    (List.replicate 64 '1') hmacConst_wellFormed
    (by intro hm; exact absurd (List.eq_of_mem_replicate hm) (by decide))
    (by omega) (by omega) (by simp)
    (by intro c hc; rw [List.eq_of_mem_replicate hc]; decide)
    (by decide)

/-- C5 counterexample: the claim says `verifyToken` returns a boolean for
every input string, but a fresh token whose same-length signature contains a
non-hex character makes `Buffer.from(sig, 'hex')` decode to fewer bytes than
the expected digest, and `crypto.timingSafeEqual` then throws — modelled as
`none`, i.e. no boolean is returned. -/
theorem c5_verifyToken_counterexample :
    verifyTokenM hmacConst 1000000 ("1000000".data ++ '.' :: List.replicate 64 'z') =
      none := by decide

/-! ## Claim C8: pipeline failure semantics and cleanup -/

/-- C8: any stage failure aborts the remaining stages and the working
directory is removed exactly once before the error is propagated; on all-stage
success nothing is removed and the result carries the signed artifact path and
the working directory.  One conjunct per exit path of `runPipeline`, in stage
order. -/
theorem c8_buildApk_cleanup :
    (∀ (env : PipelineEnv) (dir unsignedApk : String),
      env.genProject = .ok () → env.chmodGradlew = .ok () → env.genKeystore = .ok () →
      env.gradle = .ok () → env.findApk = .ok unsignedApk → env.sign = .ok () →
      buildApkM env dir =
        (allStages, [],
         .ok { apkPath := String.mk
                 (replaceFirst "-unsigned".data "-signed".data unsignedApk.data)
               buildDir := dir })) ∧
    (∀ (env : PipelineEnv) (dir : String) (e : String), env.genProject = .error e →
      buildApkM env dir = ([.generateProject], [dir], .error e)) ∧
    (∀ (env : PipelineEnv) (dir : String) (e : String),
      env.genProject = .ok () → env.chmodGradlew = .error e →
      buildApkM env dir = ([.generateProject, .chmodStage], [dir], .error e)) ∧
    (∀ (env : PipelineEnv) (dir : String) (e : String),
      env.genProject = .ok () → env.chmodGradlew = .ok () → env.genKeystore = .error e →
      buildApkM env dir = ([.generateProject, .chmodStage, .keystore], [dir], .error e)) ∧
    (∀ (env : PipelineEnv) (dir : String) (e : String),
      env.genProject = .ok () → env.chmodGradlew = .ok () → env.genKeystore = .ok () →
      env.gradle = .error e →
      buildApkM env dir =
        ([.generateProject, .chmodStage, .keystore, .gradleBuild], [dir], .error e)) ∧
    (∀ (env : PipelineEnv) (dir : String) (e : String),
      env.genProject = .ok () → env.chmodGradlew = .ok () → env.genKeystore = .ok () →
      env.gradle = .ok () → env.findApk = .error e →
      buildApkM env dir =
        ([.generateProject, .chmodStage, .keystore, .gradleBuild, .findApkStage],
         [dir], .error e)) ∧
    (∀ (env : PipelineEnv) (dir unsignedApk : String) (e : String),
      env.genProject = .ok () → env.chmodGradlew = .ok () → env.genKeystore = .ok () →
      env.gradle = .ok () → env.findApk = .ok unsignedApk → env.sign = .error e →
      buildApkM env dir = (allStages, [dir], .error e)) := by
  refine ⟨?_, ?_, ?_, ?_, ?_, ?_, ?_⟩
  · intro env dir u h1 h2 h3 h4 h5 h6
    unfold buildApkM runPipelineM allStages
    rw [h1, h2, h3, h4, h5, h6]
  · intro env dir e h1
    unfold buildApkM runPipelineM
    rw [h1]
  · intro env dir e h1 h2
    unfold buildApkM runPipelineM
    rw [h1, h2]
  · intro env dir e h1 h2 h3
    unfold buildApkM runPipelineM
    rw [h1, h2, h3]
  · intro env dir e h1 h2 h3 h4
    unfold buildApkM runPipelineM
    rw [h1, h2, h3, h4]
  · intro env dir e h1 h2 h3 h4 h5
    unfold buildApkM runPipelineM
    rw [h1, h2, h3, h4, h5]
  · intro env dir u e h1 h2 h3 h4 h5 h6
    unfold buildApkM runPipelineM allStages
    rw [h1, h2, h3, h4, h5, h6]

/-- Witness for C8: the gradle stage fails concretely — stages after it never
start, the working directory is removed once, the error propagates. -/
theorem c8_buildApk_cleanup_witness :
    buildApkM
      { genProject := .ok (), chmodGradlew := .ok (), genKeystore := .ok ()
        gradle := .error "Gradle build failed with exit code 1."
        findApk := .ok "u.apk", sign := .ok () } "/tmp/j" =
      ([.generateProject, .chmodStage, .keystore, .gradleBuild], ["/tmp/j"],
        .error "Gradle build failed with exit code 1.") :=
  c8_buildApk_cleanup.2.2.2.2.1 _ "/tmp/j" "Gradle build failed with exit code 1."
    rfl rfl rfl rfl

/-! ## Claim C2: the SSRF gate on outbound fetches -/

/-- C2: the spec requires every user-input-driven outbound fetch to pass the
hostname through `isPrivateHostname` before the request; `fetchWithTimeout`
(used by the manifest and HTML-page fetches) does — blocked hosts produce the
distinguishable `ssrfBlocked` error and no request — but `fetchAndConvertSvg`
(the SVG icon fetch of the pipeline's icon-preparation stage, builder.ts
422–432) calls the global `fetch` with no guard: for the private host
`10.0.0.1` the request is issued and succeeds. -/
theorem c2_svg_icon_fetch_bypasses_guard :
    isPrivateHostname "10.0.0.1" = true ∧
    isSvgUrl "https://10.0.0.1/icon.svg" = true ∧
    fetchWithTimeoutM netStub "https://10.0.0.1/icon.svg" =
      ([], .error (.ssrfBlocked "10.0.0.1")) ∧
    fetchAndConvertSvgM netStub "https://10.0.0.1/icon.svg" =
      (["https://10.0.0.1/icon.svg"], .ok "png") ∧
    (∀ (net : String → NetResponse) (url host : String),
      urlHostname url = some host → isPrivateHostname host = true →
      fetchWithTimeoutM net url = ([], .error (.ssrfBlocked host))) := by
  refine ⟨by decide, by decide, by rfl, by rfl, ?_⟩
  intro net url host hu hp
  unfold fetchWithTimeoutM
  rw [hu]
  show (if isPrivateHostname host = true then
      (([], .error (.ssrfBlocked host)) : List String × Except FetchErr NetResponse)
    else ([url], .ok (net url))) = ([], .error (.ssrfBlocked host))
  rw [hp, if_pos rfl]

/-- Witness for C2's guard conjunct at a concrete blocked URL. -/
theorem c2_svg_icon_fetch_bypasses_guard_witness :
    fetchWithTimeoutM netStub "https://192.168.1.1/manifest.json" =
      ([], .error (.ssrfBlocked "192.168.1.1")) :=
  c2_svg_icon_fetch_bypasses_guard.2.2.2.2 netStub "https://192.168.1.1/manifest.json"
    "192.168.1.1" (by decide) (by decide)

/-! ## Claim C9: request validation -/

theorem stripMarkup_length_le (l : List Char) : (stripMarkup l).length ≤ l.length :=
  List.length_filter_le _ l

theorem stripMarkup_no_markup (l : List Char) :
    ∀ c ∈ stripMarkup l, markupChar c = false := by
  intro c hc
  have := (List.mem_filter.mp hc).2
  simpa using this

/-- C9 (amended): an accepted request satisfies every schema rule — original
display name 1–50 and short name 1–12 characters, checked *before* the
transform strips the markup characters `<>&"'\x60` (so the stored name can be
shorter, even empty, and is free of those markup characters; ASCII control
characters are not stripped); package id matching the regex; both colors
6-digit hex; display and orientation in their enums; icon URL and optional
maskable icon URL URL-shaped; and outside development mode an `https://`
source URL. -/
theorem c9_validation_amended (dev : Bool) (r : RawBuildOptions)
    (o : ParsedBuildOptions) (hp : parseBuildOptions dev r = some o) :
    (o.appName.data = stripMarkup r.appName.data ∧
     1 ≤ r.appName.length ∧ r.appName.length ≤ 50 ∧ o.appName.length ≤ 50 ∧
     ∀ c ∈ o.appName.data, markupChar c = false) ∧
    (o.shortName.data = stripMarkup r.shortName.data ∧
     1 ≤ r.shortName.length ∧ r.shortName.length ≤ 12 ∧ o.shortName.length ≤ 12 ∧
     ∀ c ∈ o.shortName.data, markupChar c = false) ∧
    pkgIdRegexTest o.packageId.data = true ∧
    hexColorTest o.themeColor = true ∧ hexColorTest o.backgroundColor = true ∧
    displayEnumOk o.display = true ∧ orientationEnumOk o.orientation = true ∧
    isUrlShaped o.iconUrl = true ∧
    (∀ u, o.maskableIconUrl = some u → isUrlShaped u = true) ∧
    isUrlShaped o.pwaUrl = true ∧
    (dev = false → "https://".data.isPrefixOf o.pwaUrl.data = true) := by
  unfold parseBuildOptions at hp
  split at hp
  case isTrue hdev =>
    split at hp
    case isFalse => exact absurd hp (by simp)
    case isTrue hcond =>
      obtain ⟨hurl, hscheme, ha1, ha2, hs1, hs2, hpkg, hdis, hori, hc1, hc2, hicon,
        hmask⟩ := hcond
      injection hp with ho
      subst ho
      refine ⟨⟨rfl, ha1, ha2, ?_, stripMarkup_no_markup _⟩,
        ⟨rfl, hs1, hs2, ?_, stripMarkup_no_markup _⟩, hpkg, hc1, hc2, hdis, hori, hicon,
        ?_, hurl, ?_⟩
      · exact le_trans (stripMarkup_length_le r.appName.data) ha2
      · exact le_trans (stripMarkup_length_le r.shortName.data) hs2
      · intro u hu
        have hu2 : r.maskableIconUrl = some u := hu
        rw [hu2] at hmask
        simpa using hmask
      · intro hdev0
        rw [hdev0] at hdev
        exact absurd hdev (by simp)
  case isFalse hdev =>
    split at hp
    case isFalse => exact absurd hp (by simp)
    case isTrue hcond =>
      obtain ⟨hurl, hscheme, ha1, ha2, hs1, hs2, hpkg, hdis, hori, hc1, hc2, hicon,
        hmask⟩ := hcond
      injection hp with ho
      subst ho
      refine ⟨⟨rfl, ha1, ha2, ?_, stripMarkup_no_markup _⟩,
        ⟨rfl, hs1, hs2, ?_, stripMarkup_no_markup _⟩, hpkg, hc1, hc2, hdis, hori, hicon,
        ?_, hurl, ?_⟩
      · exact le_trans (stripMarkup_length_le r.appName.data) ha2
      · exact le_trans (stripMarkup_length_le r.shortName.data) hs2
      · intro u hu
        have hu2 : r.maskableIconUrl = some u := hu
        rw [hu2] at hmask
        simpa using hmask
      · intro hdev0
        exact hscheme

/-- Witness for C9 at the concrete valid request `rawGood`. -/
theorem c9_validation_amended_witness :
    hexColorTest "#1a2b3c" = true ∧ displayEnumOk "standalone" = true := by
  have h := c9_validation_amended false rawGood
    { pwaUrl := "https://example.com", appName := "My App", shortName := "App"
      packageId := "com.example.app", display := "standalone", orientation := "portrait"
      themeColor := "#1a2b3c", backgroundColor := "#FFffFF"
      iconUrl := "https://example.com/icon.png", maskableIconUrl := none }
    (by decide)
  exact ⟨h.2.2.2.1, h.2.2.2.2.2.1⟩

/-- C9 counterexample: the claim says every accepted display name is
non-empty and free of control/markup characters, but the length checks run
before the strip transform, so the one-character name `"<"` is accepted and
stored as the empty string; and control characters are not stripped: the name
`"\x01"` is accepted unchanged. -/
theorem c9_validation_counterexample :
    (parseBuildOptions false rawMarkupName).map (fun o => o.appName) = some "" ∧
    (parseBuildOptions false { rawGood with appName := "\x01" }).map
      (fun o => o.appName) = some "\x01" := by
  constructor <;> decide

/-! ## Claim C3: history replay for late subscribers -/

theorem count_one_ne {x y : Nat} (h : y ≠ x) : List.count x [y] = 0 := by
  simp [List.count_singleton]
  omega

theorem busRun_buffer (ops : List BusOp) : ∀ s : BusState,
    (busRun s ops).eventBuffer = s.eventBuffer ++ emittedEvents ops := by
  induction ops with
  | nil => intro s; simp [busRun, emittedEvents]
  | cons op rest ih =>
    intro s
    cases op with
    | emit e =>
      show (busRun (emitStep s e) rest).eventBuffer = _
      rw [ih]
      simp [emitStep, emittedEvents]
    | subscribe l =>
      show (busRun (subscribeStep s l) rest).eventBuffer = _
      rw [ih]
      simp [subscribeStep, emittedEvents]

/-- A callback that never subscribes during `ops` and is not registered
receives nothing and stays unregistered. -/
theorem busRun_untouched (ops : List BusOp) : ∀ s : BusState, ∀ l : Nat,
    BusOp.subscribe l ∉ ops → s.listeners.count l = 0 →
    (busRun s ops).received l = s.received l ∧
      (busRun s ops).listeners.count l = 0 := by
  induction ops with
  | nil => intro s l _ hc; exact ⟨rfl, hc⟩
  | cons op rest ih =>
    intro s l hnot hc
    have hrest : BusOp.subscribe l ∉ rest := fun m => hnot (List.mem_cons_of_mem op m)
    cases op with
    | emit e =>
      have step : (emitStep s e).received l = s.received l ∧
          (emitStep s e).listeners.count l = 0 := by
        constructor
        · show s.received l ++ List.replicate (s.listeners.count l) e = s.received l
          rw [hc]
          simp
        · exact hc
      have := ih (emitStep s e) l hrest step.2
      exact ⟨this.1.trans step.1, this.2⟩
    | subscribe m =>
      have hml : m ≠ l := by
        intro he
        exact hnot (by rw [he]; exact List.mem_cons_self _ _)
      have step : (subscribeStep s m).received l = s.received l ∧
          (subscribeStep s m).listeners.count l = 0 := by
        constructor
        · show (if l = m then s.received l ++ s.eventBuffer else s.received l) = _
          rw [if_neg (fun he => hml he.symm)]
        · show (s.listeners ++ [m]).count l = 0
          rw [List.count_append, hc, count_one_ne hml]
      have := ih (subscribeStep s m) l hrest step.2
      exact ⟨this.1.trans step.1, this.2⟩

/-- A callback registered exactly once whose received log equals the buffer
stays in sync with the buffer under any operations that do not re-subscribe
it. -/
theorem busRun_synced (ops : List BusOp) : ∀ s : BusState, ∀ l : Nat,
    BusOp.subscribe l ∉ ops → s.listeners.count l = 1 →
    s.received l = s.eventBuffer →
    (busRun s ops).received l = (busRun s ops).eventBuffer ∧
      (busRun s ops).listeners.count l = 1 := by
  induction ops with
  | nil => intro s l _ hc hs; exact ⟨hs, hc⟩
  | cons op rest ih =>
    intro s l hnot hc hs
    have hrest : BusOp.subscribe l ∉ rest := fun m => hnot (List.mem_cons_of_mem op m)
    cases op with
    | emit e =>
      refine ih (emitStep s e) l hrest hc ?_
      show s.received l ++ List.replicate (s.listeners.count l) e =
        s.eventBuffer ++ [e]
      rw [hc, hs]
      simp
    | subscribe m =>
      have hml : m ≠ l := by
        intro he
        exact hnot (by rw [he]; exact List.mem_cons_self _ _)
      have hcount : (subscribeStep s m).listeners.count l = 1 := by
        show (s.listeners ++ [m]).count l = 1
        rw [List.count_append, hc, count_one_ne hml]
      refine ih (subscribeStep s m) l hrest hcount ?_
      show (if l = m then s.received l ++ s.eventBuffer else s.received l) =
        s.eventBuffer
      rw [if_neg (fun he => hml he.symm), hs]

theorem emittedEvents_append (a b : List BusOp) :
    emittedEvents (a ++ b) = emittedEvents a ++ emittedEvents b := by
  unfold emittedEvents
  rw [List.filterMap_append]

theorem busRun_append (a : List BusOp) : ∀ (s : BusState) (b : List BusOp),
    busRun s (a ++ b) = busRun (busRun s a) b := by
  induction a with
  | nil => intro s b; rfl
  | cons op rest ih =>
    intro s b
    show busRun (busStep s op) (rest ++ b) = _
    rw [ih]
    rfl

/-- C3: a subscriber that joins after events were emitted sees exactly the
sequence an initial subscriber saw — full history replayed at registration,
then every later event, nothing lost or duplicated.  `a` subscribes before
any event, `b` subscribes after `ops1`; both end with the full emitted
sequence. -/
theorem c3_late_subscriber_replay (a b : Nat) (ops1 ops2 : List BusOp)
    (hab : a ≠ b)
    (ha1 : BusOp.subscribe a ∉ ops1) (ha2 : BusOp.subscribe a ∉ ops2)
    (hb1 : BusOp.subscribe b ∉ ops1) (hb2 : BusOp.subscribe b ∉ ops2) :
    (busRun initBus (BusOp.subscribe a :: (ops1 ++ BusOp.subscribe b :: ops2))).received b =
      (busRun initBus (BusOp.subscribe a :: (ops1 ++ BusOp.subscribe b :: ops2))).received a ∧
    (busRun initBus (BusOp.subscribe a :: (ops1 ++ BusOp.subscribe b :: ops2))).received a =
      emittedEvents (BusOp.subscribe a :: (ops1 ++ BusOp.subscribe b :: ops2)) := by
  have hstep1 : busRun initBus (BusOp.subscribe a :: (ops1 ++ BusOp.subscribe b :: ops2)) =
      busRun (subscribeStep initBus a) (ops1 ++ BusOp.subscribe b :: ops2) := rfl
  set s1 := subscribeStep initBus a with hs1
  have h1a : s1.listeners.count a = 1 := by simp [hs1, subscribeStep, initBus]
  have h1b : s1.listeners.count b = 0 := by
    show List.count b ([] ++ [a]) = 0
    rw [List.nil_append, count_one_ne hab]
  have h1recv : s1.received a = s1.eventBuffer := by
    simp [hs1, subscribeStep, initBus]
  have hsplit : busRun s1 (ops1 ++ BusOp.subscribe b :: ops2) =
      busRun (busStep (busRun s1 ops1) (BusOp.subscribe b)) ops2 := by
    rw [busRun_append]
    rfl
  set s2 := busRun s1 ops1 with hs2
  have h2a := busRun_synced ops1 s1 a ha1 h1a h1recv
  have h2b := busRun_untouched ops1 s1 b hb1 h1b
  have h2brecv : s2.received b = [] := by
    rw [← hs2] at h2b
    rw [h2b.1]
    simp [hs1, subscribeStep, initBus, Ne.symm hab]
  set s3 := subscribeStep s2 b with hs3
  have h3a : s3.received a = s3.eventBuffer ∧ s3.listeners.count a = 1 := by
    constructor
    · show (if a = b then s2.received a ++ s2.eventBuffer else s2.received a) =
        s2.eventBuffer
      rw [if_neg hab]
      exact h2a.1
    · show (s2.listeners ++ [b]).count a = 1
      rw [List.count_append, count_one_ne (fun he => hab he.symm), h2a.2]
  have h3b : s3.received b = s3.eventBuffer ∧ s3.listeners.count b = 1 := by
    constructor
    · show (if b = b then s2.received b ++ s2.eventBuffer else s2.received b) =
        s2.eventBuffer
      rw [if_pos rfl, h2brecv]
      simp
    · show (s2.listeners ++ [b]).count b = 1
      rw [List.count_append, h2b.2]
      simp
  have h4a := busRun_synced ops2 s3 a ha2 h3a.2 h3a.1
  have h4b := busRun_synced ops2 s3 b hb2 h3b.2 h3b.1
  have hfinal : busRun initBus (BusOp.subscribe a :: (ops1 ++ BusOp.subscribe b :: ops2)) =
      busRun s3 ops2 := by
    rw [hstep1, hsplit]
    rfl
  rw [hfinal]
  refine ⟨h4b.1.trans h4a.1.symm, h4a.1.trans ?_⟩
  have hbuf : (busRun s3 ops2).eventBuffer = s3.eventBuffer ++ emittedEvents ops2 :=
    busRun_buffer ops2 s3
  have hbuf3 : s3.eventBuffer = s2.eventBuffer := rfl
  have hbuf2 : s2.eventBuffer = s1.eventBuffer ++ emittedEvents ops1 :=
    busRun_buffer ops1 s1
  have hbuf1 : s1.eventBuffer = ([] : List Nat) := rfl
  rw [hbuf, hbuf3, hbuf2, hbuf1]
  show emittedEvents ops1 ++ emittedEvents ops2 =
    emittedEvents (BusOp.subscribe a :: (ops1 ++ BusOp.subscribe b :: ops2))
  rw [show emittedEvents (BusOp.subscribe a :: (ops1 ++ BusOp.subscribe b :: ops2)) =
      emittedEvents (ops1 ++ BusOp.subscribe b :: ops2) from rfl,
    emittedEvents_append]
  rfl

/-- Witness for C3: `b` subscribes after event 5, before event 7; both
subscribers end with `[5, 7]`. -/
theorem c3_late_subscriber_replay_witness :
    (busRun initBus (BusOp.subscribe 0 :: ([BusOp.emit 5] ++ BusOp.subscribe 1 ::
      [BusOp.emit 7]))).received 1 =
      (busRun initBus (BusOp.subscribe 0 :: ([BusOp.emit 5] ++ BusOp.subscribe 1 ::
        [BusOp.emit 7]))).received 0 ∧
    (busRun initBus (BusOp.subscribe 0 :: ([BusOp.emit 5] ++ BusOp.subscribe 1 ::
      [BusOp.emit 7]))).received 0 =
      emittedEvents (BusOp.subscribe 0 :: ([BusOp.emit 5] ++ BusOp.subscribe 1 ::
        [BusOp.emit 7])) :=
  c3_late_subscriber_replay 0 1 [BusOp.emit 5] [BusOp.emit 7] (by decide)
    (by decide) (by decide) (by decide) (by decide)

/-! ## Claims C4 and C10: job lifecycle invariants -/

theorem sysRun_append (a : List SysOp) :
    ∀ (s : Option JobRec × List String) (b : List SysOp),
    sysRun s (a ++ b) = sysRun (sysRun s a) b := by
  induction a with
  | nil => intro s b; rfl
  | cons op rest ih =>
    intro s b
    show sysRun ((sysStep s.1 op).1, s.2 ++ (sysStep s.1 op).2) (rest ++ b) = _
    rw [ih]
    rfl

theorem runnerOps_snoc {x : List SysOp} {op : SysOp} (h : RunnerOps (x ++ [op])) :
    (op = .startRun ∧ x = []) ∨ (isFinishOp op = true ∧ x = [.startRun]) := by
  rcases h with h | h | ⟨f, hf, h⟩
  · exact absurd h (by simp)
  · have hlen : x.length + 1 = 1 := by simpa using congrArg List.length h
    have hx : x = [] := List.eq_nil_of_length_eq_zero (by omega)
    subst hx
    simp only [List.nil_append, List.cons.injEq, and_true] at h
    exact Or.inl ⟨h, rfl⟩
  · have hlen : x.length + 1 = 2 := by simpa using congrArg List.length h
    obtain ⟨y, hy⟩ := List.length_eq_one.mp (show x.length = 1 by omega)
    subst hy
    simp only [List.cons_append, List.nil_append, List.cons.injEq, and_true] at h
    exact Or.inr ⟨by rw [h.2]; exact hf, by rw [h.1]⟩

theorem runnerOps_append_left {x : List SysOp} :
    ∀ {y : List SysOp}, RunnerOps (x ++ y) → RunnerOps x := by
  intro y
  induction y using List.reverseRecOn with
  | nil => intro h; simpa using h
  | append_singleton w op ih =>
    intro h
    have h2 : (op = SysOp.startRun ∧ x ++ w = []) ∨
        (isFinishOp op = true ∧ x ++ w = [SysOp.startRun]) :=
      runnerOps_snoc (by rw [List.append_assoc]; exact h)
    rcases h2 with ⟨-, hxw⟩ | ⟨-, hxw⟩
    · have hx : x = [] := by
        rcases List.append_eq_nil.mp hxw with ⟨hx, -⟩
        exact hx
      rw [hx]
      exact Or.inl rfl
    · exact ih (by rw [hxw]; exact Or.inr (Or.inl rfl))

theorem jobAfter_correct : ∀ (rest : List SysOp),
    RunnerOps (rest.filter isNonDelete) → ∀ rms : List String,
    (sysRun (some queuedRec, rms) rest).1 = jobAfter rest := by
  intro rest
  induction rest using List.reverseRecOn with
  | nil =>
    intro hr rms
    rfl
  | append_singleton t op ih =>
    intro hr rms
    have hfl : (t ++ [op]).filter isNonDelete =
        t.filter isNonDelete ++ [op].filter isNonDelete := List.filter_append _ _
    have hrt : RunnerOps (t.filter isNonDelete) :=
      runnerOps_append_left (by rw [← List.filter_append]; exact hr)
    have hjt := ih hrt rms
    rw [sysRun_append]
    have hstep : (sysRun (sysRun (some queuedRec, rms) t) [op]).1 =
        (sysStep (jobAfter t) op).1 := by
      show (sysStep (sysRun _ t).1 op).1 = _
      rw [hjt]
    rw [hstep]
    cases op with
    | delete =>
      have : jobAfter (t ++ [SysOp.delete]) = none := by
        unfold jobAfter
        rw [if_pos (List.mem_append.mpr (Or.inr (List.mem_singleton.mpr rfl)))]
      rw [this]
      rfl
    | create =>
      exfalso
      rw [hfl] at hr
      have : ([SysOp.create].filter isNonDelete) = [SysOp.create] := rfl
      rw [this] at hr
      rcases runnerOps_snoc hr with ⟨he, -⟩ | ⟨he, -⟩
      · exact absurd he (by decide)
      · exact absurd he (by decide)
    | startRun =>
      have hfil : ([SysOp.startRun].filter isNonDelete) = [SysOp.startRun] := rfl
      rw [hfl, hfil] at hr
      rcases runnerOps_snoc hr with ⟨-, hx⟩ | ⟨he, -⟩
      · by_cases hd : SysOp.delete ∈ t
        · have h1 : jobAfter t = none := by unfold jobAfter; rw [if_pos hd]
          have h2 : jobAfter (t ++ [SysOp.startRun]) = none := by
            unfold jobAfter
            rw [if_pos (List.mem_append.mpr (Or.inl hd))]
          rw [h1, h2]
          rfl
        · have h1 : jobAfter t = some queuedRec := by
            unfold jobAfter
            rw [if_neg hd, hx]
            rfl
          have h2 : jobAfter (t ++ [SysOp.startRun]) = some runningRec := by
            unfold jobAfter
            rw [if_neg (by
              intro hm
              rcases List.mem_append.mp hm with hm | hm
              · exact hd hm
              · exact absurd (List.mem_singleton.mp hm) (by decide)), hfl, hfil, hx]
            rfl
          rw [h1, h2]
          rfl
      · exact absurd he (by decide)
    | finishSuccess dir apk =>
      have hfil : ([SysOp.finishSuccess dir apk].filter isNonDelete) =
          [SysOp.finishSuccess dir apk] := rfl
      rw [hfl, hfil] at hr
      rcases runnerOps_snoc hr with ⟨he, -⟩ | ⟨-, hx⟩
      · exact absurd he (by simp)
      · by_cases hd : SysOp.delete ∈ t
        · have h1 : jobAfter t = none := by unfold jobAfter; rw [if_pos hd]
          have h2 : jobAfter (t ++ [SysOp.finishSuccess dir apk]) = none := by
            unfold jobAfter
            rw [if_pos (List.mem_append.mpr (Or.inl hd))]
          rw [h1, h2]
          rfl
        · have h1 : jobAfter t = some runningRec := by
            unfold jobAfter
            rw [if_neg hd, hx]
            rfl
          have h2 : jobAfter (t ++ [SysOp.finishSuccess dir apk]) =
              some (completeRec dir apk) := by
            unfold jobAfter
            rw [if_neg (by
              intro hm
              rcases List.mem_append.mp hm with hm | hm
              · exact hd hm
              · exact absurd (List.mem_singleton.mp hm) (by simp)), hfl, hfil, hx]
            rfl
          rw [h1, h2]
          rfl
    | finishError msg =>
      have hfil : ([SysOp.finishError msg].filter isNonDelete) =
          [SysOp.finishError msg] := rfl
      rw [hfl, hfil] at hr
      rcases runnerOps_snoc hr with ⟨he, -⟩ | ⟨-, hx⟩
      · exact absurd he (by simp)
      · by_cases hd : SysOp.delete ∈ t
        · have h1 : jobAfter t = none := by unfold jobAfter; rw [if_pos hd]
          have h2 : jobAfter (t ++ [SysOp.finishError msg]) = none := by
            unfold jobAfter
            rw [if_pos (List.mem_append.mpr (Or.inl hd))]
          rw [h1, h2]
          rfl
        · have h1 : jobAfter t = some runningRec := by
            unfold jobAfter
            rw [if_neg hd, hx]
            rfl
          have h2 : jobAfter (t ++ [SysOp.finishError msg]) =
              some (errorRec msg) := by
            unfold jobAfter
            rw [if_neg (by
              intro hm
              rcases List.mem_append.mp hm with hm | hm
              · exact hd hm
              · exact absurd (List.mem_singleton.mp hm) (by simp)), hfl, hfil, hx]
            rfl
          rw [h1, h2]
          rfl

/-- The job record after a reachable trace is given by `jobAfter`. -/
theorem reachable_state (t : List SysOp) (ht : ReachableTrace t) :
    (sysRun initStore t).1 =
      (match t with
       | [] => none
       | _ :: rest => jobAfter rest) := by
  rcases ht with rfl | ⟨rest, rfl, hr⟩
  · rfl
  · show (sysRun initStore (SysOp.create :: rest)).1 = jobAfter rest
    have : sysRun initStore (SysOp.create :: rest) =
        sysRun (sysRun initStore [SysOp.create]) rest := by
      rw [← sysRun_append]
      rfl
    rw [this]
    exact jobAfter_correct rest hr _

theorem jobAfter_some {rest : List SysOp} {j : JobRec} (h : jobAfter rest = some j) :
    SysOp.delete ∉ rest ∧ recOfOps (rest.filter isNonDelete) = some j := by
  unfold jobAfter at h
  by_cases hd : SysOp.delete ∈ rest
  · rw [if_pos hd] at h
    exact absurd h (by simp)
  · rw [if_neg hd] at h
    exact ⟨hd, h⟩

theorem isFinishOp_cases {f : SysOp} (h : isFinishOp f = true) :
    (∃ d a, f = .finishSuccess d a) ∨ (∃ m, f = .finishError m) := by
  cases f with
  | finishSuccess d a => exact Or.inl ⟨d, a, rfl⟩
  | finishError m => exact Or.inr ⟨m, rfl⟩
  | create => exact absurd h (by decide)
  | startRun => exact absurd h (by decide)
  | delete => exact absurd h (by decide)

theorem append_eq_single {α : Type} {A B : List α} {x : α} (h : A ++ B = [x]) :
    (A = [] ∧ B = [x]) ∨ (A = [x] ∧ B = []) := by
  cases A with
  | nil => exact Or.inl ⟨rfl, by simpa using h⟩
  | cons a A2 =>
    obtain ⟨hA2, hB⟩ : A2 = [] ∧ B = [] := by simpa using congrArg List.length h
    subst hA2; subst hB
    simp only [List.append_nil] at h
    exact Or.inr ⟨h, rfl⟩

theorem append_eq_pair {α : Type} {A B : List α} {x y : α} (h : A ++ B = [x, y]) :
    (A = [] ∧ B = [x, y]) ∨ (A = [x] ∧ B = [y]) ∨ (A = [x, y] ∧ B = []) := by
  cases A with
  | nil => exact Or.inl ⟨rfl, by simpa using h⟩
  | cons a A2 =>
    cases A2 with
    | nil =>
      simp only [List.cons_append, List.nil_append, List.cons.injEq] at h
      exact Or.inr (Or.inl ⟨by rw [h.1], h.2⟩)
    | cons a2 A3 =>
      obtain ⟨hA3, hB⟩ : A3 = [] ∧ B = [] := by simpa using congrArg List.length h
      subst hA3; subst hB
      simp only [List.append_nil] at h
      injection h with h1 hr2
      injection hr2 with h2 h3
      exact Or.inr (Or.inr ⟨by rw [h1, h2], rfl⟩)

/-- C4: every job is created `queued`; along any reachable operation
sequence the status rank never decreases and a terminal record never changes;
and every single reachable step either keeps the record's status, moves
`queued` to `running`, or moves `running` to a terminal status. -/
theorem c4_status_state_machine :
    (sysRun initStore [SysOp.create]).1 = some queuedRec ∧
    (∀ (t1 t2 : List SysOp) (j1 j2 : JobRec), ReachableTrace (t1 ++ t2) →
      (sysRun initStore t1).1 = some j1 → (sysRun initStore (t1 ++ t2)).1 = some j2 →
      statusRank j1.status ≤ statusRank j2.status ∧
        (isTerminal j1.status = true → j2 = j1)) ∧
    (∀ (t : List SysOp) (op : SysOp) (j j2 : JobRec), ReachableTrace (t ++ [op]) →
      (sysRun initStore t).1 = some j → (sysRun initStore (t ++ [op])).1 = some j2 →
      j2.status = j.status ∨ (j.status = .queued ∧ j2.status = .running) ∨
        (j.status = .running ∧ isTerminal j2.status = true)) := by
  refine ⟨rfl, ?_, ?_⟩
  · intro t1 t2 j1 j2 hreach h1 h2
    rcases hreach with he | ⟨rest, he, hr⟩
    · obtain ⟨rfl, rfl⟩ := List.append_eq_nil.mp he
      exact absurd h1 (by simp [sysRun, initStore])
    · cases t1 with
      | nil => exact absurd h1 (by simp [sysRun, initStore])
      | cons op1 r1 =>
        have he2 : op1 :: (r1 ++ t2) = SysOp.create :: rest := he
        injection he2 with hop1 hrest
        subst hop1
        subst hrest
        have hrA : RunnerOps (r1.filter isNonDelete) :=
          runnerOps_append_left (by rw [← List.filter_append]; exact hr)
        have h1' : jobAfter r1 = some j1 := by
          rw [← jobAfter_correct r1 hrA []]
          exact h1
        have h2' : jobAfter (r1 ++ t2) = some j2 := by
          rw [← jobAfter_correct (r1 ++ t2) hr []]
          exact h2
        obtain ⟨-, hro1⟩ := jobAfter_some h1'
        obtain ⟨-, hro2⟩ := jobAfter_some h2'
        rw [List.filter_append] at hro2
        rw [show (r1 ++ t2).filter isNonDelete =
          r1.filter isNonDelete ++ t2.filter isNonDelete from List.filter_append _ _] at hr
        rcases hr with hsh | hsh | ⟨f, hf, hsh⟩
        · obtain ⟨hA, -⟩ := List.append_eq_nil.mp hsh
          rw [hsh] at hro2
          rw [hA] at hro1
          have hj1 : j1 = queuedRec :=
            (Option.some.inj (show (some queuedRec : Option JobRec) = some j1 from hro1)).symm
          have hj2 : j2 = queuedRec :=
            (Option.some.inj (show (some queuedRec : Option JobRec) = some j2 from hro2)).symm
          subst hj1; subst hj2
          exact ⟨Nat.le_refl _, fun _ => rfl⟩
        · rw [hsh] at hro2
          have hj2 : j2 = runningRec :=
            (Option.some.inj (show (some runningRec : Option JobRec) = some j2 from hro2)).symm
          subst hj2
          rcases append_eq_single hsh with ⟨hA, -⟩ | ⟨hA, -⟩ <;> rw [hA] at hro1
          · have hj1 : j1 = queuedRec :=
              (Option.some.inj (show (some queuedRec : Option JobRec) = some j1 from hro1)).symm
            subst hj1
            exact ⟨by decide, fun h => absurd h (by decide)⟩
          · have hj1 : j1 = runningRec :=
              (Option.some.inj (show (some runningRec : Option JobRec) = some j1 from hro1)).symm
            subst hj1
            exact ⟨Nat.le_refl _, fun _ => rfl⟩
        · rcases isFinishOp_cases hf with ⟨d, a, rfl⟩ | ⟨m, rfl⟩
          · rw [hsh] at hro2
            have hj2 : j2 = completeRec d a :=
              (Option.some.inj
                (show (some (completeRec d a) : Option JobRec) = some j2 from hro2)).symm
            subst hj2
            rcases append_eq_pair hsh with ⟨hA, -⟩ | ⟨hA, -⟩ | ⟨hA, -⟩ <;> rw [hA] at hro1
            · have hj1 : j1 = queuedRec :=
                (Option.some.inj (show (some queuedRec : Option JobRec) = some j1 from hro1)).symm
              subst hj1
              refine ⟨?_, fun h => absurd h (by decide)⟩
              show statusRank Status.queued ≤ statusRank Status.complete
              decide
            · have hj1 : j1 = runningRec :=
                (Option.some.inj (show (some runningRec : Option JobRec) = some j1 from hro1)).symm
              subst hj1
              refine ⟨?_, fun h => absurd h (by decide)⟩
              show statusRank Status.running ≤ statusRank Status.complete
              decide
            · have hj1 : j1 = completeRec d a :=
                (Option.some.inj
                  (show (some (completeRec d a) : Option JobRec) = some j1 from hro1)).symm
              subst hj1
              exact ⟨Nat.le_refl _, fun _ => rfl⟩
          · rw [hsh] at hro2
            have hj2 : j2 = errorRec m :=
              (Option.some.inj
                (show (some (errorRec m) : Option JobRec) = some j2 from hro2)).symm
            subst hj2
            rcases append_eq_pair hsh with ⟨hA, -⟩ | ⟨hA, -⟩ | ⟨hA, -⟩ <;> rw [hA] at hro1
            · have hj1 : j1 = queuedRec :=
                (Option.some.inj (show (some queuedRec : Option JobRec) = some j1 from hro1)).symm
              subst hj1
              refine ⟨?_, fun h => absurd h (by decide)⟩
              show statusRank Status.queued ≤ statusRank Status.error
              decide
            · have hj1 : j1 = runningRec :=
                (Option.some.inj (show (some runningRec : Option JobRec) = some j1 from hro1)).symm
              subst hj1
              refine ⟨?_, fun h => absurd h (by decide)⟩
              show statusRank Status.running ≤ statusRank Status.error
              decide
            · have hj1 : j1 = errorRec m :=
                (Option.some.inj
                  (show (some (errorRec m) : Option JobRec) = some j1 from hro1)).symm
              subst hj1
              exact ⟨Nat.le_refl _, fun _ => rfl⟩
  · intro t op j j2 hreach h1 h2
    rcases hreach with he | ⟨rest, he, hr⟩
    · exact absurd he (by simp)
    · cases t with
      | nil => exact absurd h1 (by simp [sysRun, initStore])
      | cons op1 r1 =>
        have he2 : op1 :: (r1 ++ [op]) = SysOp.create :: rest := he
        injection he2 with hop1 hrest
        subst hop1
        subst hrest
        have hrA : RunnerOps (r1.filter isNonDelete) :=
          runnerOps_append_left (by rw [← List.filter_append]; exact hr)
        have h1' : jobAfter r1 = some j := by
          rw [← jobAfter_correct r1 hrA []]
          exact h1
        have h2' : jobAfter (r1 ++ [op]) = some j2 := by
          rw [← jobAfter_correct (r1 ++ [op]) hr []]
          exact h2
        obtain ⟨hd1, hro1⟩ := jobAfter_some h1'
        obtain ⟨hd2, hro2⟩ := jobAfter_some h2'
        rw [List.filter_append] at hro2
        cases op with
        | delete =>
          exact absurd (List.mem_append.mpr (Or.inr (List.mem_singleton.mpr rfl))) hd2
        | create =>
          exfalso
          have hr2 : RunnerOps (r1.filter isNonDelete ++ [SysOp.create]) := by
            rw [← show ([SysOp.create].filter isNonDelete) = [SysOp.create] from rfl,
              ← List.filter_append]
            exact hr
          rcases runnerOps_snoc hr2 with ⟨hx, -⟩ | ⟨hx, -⟩
          · exact absurd hx (by decide)
          · exact absurd hx (by decide)
        | startRun =>
          have hr2 : RunnerOps (r1.filter isNonDelete ++ [SysOp.startRun]) := by
            rw [← show ([SysOp.startRun].filter isNonDelete) = [SysOp.startRun] from rfl,
              ← List.filter_append]
            exact hr
          rcases runnerOps_snoc hr2 with ⟨-, hA⟩ | ⟨hx, -⟩
          · rw [hA] at hro1 hro2
            have hj : j = queuedRec :=
              (Option.some.inj (show (some queuedRec : Option JobRec) = some j from hro1)).symm
            have hj2 : j2 = runningRec :=
              (Option.some.inj (show (some runningRec : Option JobRec) = some j2 from hro2)).symm
            subst hj; subst hj2
            exact Or.inr (Or.inl ⟨rfl, rfl⟩)
          · exact absurd hx (by decide)
        | finishSuccess d a =>
          have hr2 : RunnerOps (r1.filter isNonDelete ++ [SysOp.finishSuccess d a]) := by
            rw [← show ([SysOp.finishSuccess d a].filter isNonDelete) =
              [SysOp.finishSuccess d a] from rfl, ← List.filter_append]
            exact hr
          rcases runnerOps_snoc hr2 with ⟨hx, -⟩ | ⟨-, hA⟩
          · exact absurd hx (by simp)
          · rw [hA] at hro1 hro2
            have hj : j = runningRec :=
              (Option.some.inj (show (some runningRec : Option JobRec) = some j from hro1)).symm
            have hj2 : j2 = completeRec d a :=
              (Option.some.inj
                (show (some (completeRec d a) : Option JobRec) = some j2 from hro2)).symm
            subst hj; subst hj2
            exact Or.inr (Or.inr ⟨rfl, rfl⟩)
        | finishError m =>
          have hr2 : RunnerOps (r1.filter isNonDelete ++ [SysOp.finishError m]) := by
            rw [← show ([SysOp.finishError m].filter isNonDelete) =
              [SysOp.finishError m] from rfl, ← List.filter_append]
            exact hr
          rcases runnerOps_snoc hr2 with ⟨hx, -⟩ | ⟨-, hA⟩
          · exact absurd hx (by simp)
          · rw [hA] at hro1 hro2
            have hj : j = runningRec :=
              (Option.some.inj (show (some runningRec : Option JobRec) = some j from hro1)).symm
            have hj2 : j2 = errorRec m :=
              (Option.some.inj
                (show (some (errorRec m) : Option JobRec) = some j2 from hro2)).symm
            subst hj; subst hj2
            exact Or.inr (Or.inr ⟨rfl, rfl⟩)

theorem c4_status_state_machine_witness :
    statusRank runningRec.status ≤ statusRank (errorRec "boom").status ∧
    (isTerminal runningRec.status = true → errorRec "boom" = runningRec) :=
  c4_status_state_machine.2.1 [SysOp.create, SysOp.startRun] [SysOp.finishError "boom"]
    runningRec (errorRec "boom")
    (Or.inr ⟨[SysOp.startRun, SysOp.finishError "boom"], rfl,
      Or.inr (Or.inr ⟨SysOp.finishError "boom", rfl, rfl⟩)⟩)
    rfl rfl

/-- C10: `deleteBuild` always removes the job record; it removes a directory
from the filesystem exactly when the record carries a `buildDir`, and since
only the success update sets `buildDir`, deleting any reachable job whose
status is not `complete` removes the record and touches no directory. -/
theorem c10_delete_frame :
    (∀ (j : JobRec), (sysStep (some j) SysOp.delete).1 = none) ∧
    (∀ (j : JobRec) (d : String), j.buildDir = some d →
      (sysStep (some j) SysOp.delete).2 = [d]) ∧
    (∀ (j : JobRec), j.buildDir = none → (sysStep (some j) SysOp.delete).2 = []) ∧
    (∀ (t : List SysOp) (j : JobRec), ReachableTrace t →
      (sysRun initStore t).1 = some j → j.status ≠ Status.complete →
      sysStep (some j) SysOp.delete = (none, [])) := by
  refine ⟨fun j => rfl, ?_, ?_, ?_⟩
  · intro j d hd
    show (match j.buildDir with | some d => [d] | none => []) = [d]
    rw [hd]
  · intro j hd
    show (match j.buildDir with | some d => [d] | none => []) = []
    rw [hd]
  · intro t j hreach h hstat
    rcases hreach with rfl | ⟨rest, rfl, hr⟩
    · exact absurd h (by simp [sysRun, initStore])
    · have h' : jobAfter rest = some j := by
        rw [← jobAfter_correct rest hr []]
        exact h
      obtain ⟨-, hro⟩ := jobAfter_some h'
      rcases hr with hsh | hsh | ⟨f, hf, hsh⟩
      · rw [hsh] at hro
        have hj : j = queuedRec :=
          (Option.some.inj (show (some queuedRec : Option JobRec) = some j from hro)).symm
        subst hj
        rfl
      · rw [hsh] at hro
        have hj : j = runningRec :=
          (Option.some.inj (show (some runningRec : Option JobRec) = some j from hro)).symm
        subst hj
        rfl
      · rcases isFinishOp_cases hf with ⟨d, a, rfl⟩ | ⟨m, rfl⟩
        · rw [hsh] at hro
          have hj : j = completeRec d a :=
            (Option.some.inj
              (show (some (completeRec d a) : Option JobRec) = some j from hro)).symm
          subst hj
          exact absurd rfl hstat
        · rw [hsh] at hro
          have hj : j = errorRec m :=
            (Option.some.inj (show (some (errorRec m) : Option JobRec) = some j from hro)).symm
          subst hj
          rfl

theorem c10_delete_frame_witness :
    sysStep (some (errorRec "x")) SysOp.delete = (none, []) :=
  c10_delete_frame.2.2.2 [SysOp.create, SysOp.startRun, SysOp.finishError "x"] (errorRec "x")
    (Or.inr ⟨[SysOp.startRun, SysOp.finishError "x"], rfl,
      Or.inr (Or.inr ⟨SysOp.finishError "x", rfl, rfl⟩)⟩)
    rfl (by decide)

/-! ## Icon selection: comparator order, stable sort, and the candidate scan -/

theorem cmpIcon_le_total {x y : ScoredIcon} (h : ¬ cmpIcon x y ≤ 0) : cmpIcon y x ≤ 0 := by
  cases hx : x.svg <;> cases hy : y.svg <;> simp [cmpIcon, hx, hy] at h ⊢ <;> omega

theorem cmpIcon_le_trans {x y z : ScoredIcon} (h1 : cmpIcon x y ≤ 0) (h2 : cmpIcon y z ≤ 0) :
    cmpIcon x z ≤ 0 := by
  cases hx : x.svg <;> cases hy : y.svg <;> cases hz : z.svg <;>
    simp [cmpIcon, hx, hy, hz] at h1 h2 ⊢ <;> omega

theorem cmpIcon_interp {a b : ScoredIcon} (h : cmpIcon a b ≤ 0) :
    (b.svg = false → a.svg = false) ∧ (a.svg = b.svg → b.size ≤ a.size) := by
  cases ha : a.svg <;> cases hb : b.svg <;> simp [cmpIcon, ha, hb] at h ⊢ <;> omega

theorem mem_insertScored {b x : ScoredIcon} : ∀ {l : List ScoredIcon},
    b ∈ insertScored x l ↔ b = x ∨ b ∈ l := by
  intro l
  induction l with
  | nil => simp [insertScored]
  | cons y t ih =>
    show b ∈ (if cmpIcon x y ≤ 0 then x :: y :: t else y :: insertScored x t) ↔ _
    by_cases hc : cmpIcon x y ≤ 0
    · rw [if_pos hc]
      exact List.mem_cons
    · rw [if_neg hc]
      simp only [List.mem_cons, ih]
      tauto

theorem mem_sortScored {b : ScoredIcon} : ∀ {l : List ScoredIcon},
    b ∈ sortScored l ↔ b ∈ l := by
  intro l
  induction l with
  | nil => simp [sortScored]
  | cons x r ih =>
    show b ∈ insertScored x (sortScored r) ↔ b ∈ x :: r
    simp only [mem_insertScored, ih, List.mem_cons]

theorem pairwise_insertScored {x : ScoredIcon} : ∀ {l : List ScoredIcon},
    l.Pairwise (fun a b => cmpIcon a b ≤ 0) →
    (insertScored x l).Pairwise (fun a b => cmpIcon a b ≤ 0) := by
  intro l
  induction l with
  | nil =>
    intro _
    simp [insertScored]
  | cons y t ih =>
    intro h
    obtain ⟨hy, ht⟩ := List.pairwise_cons.mp h
    show (if cmpIcon x y ≤ 0 then x :: y :: t else y :: insertScored x t).Pairwise
      (fun a b => cmpIcon a b ≤ 0)
    by_cases hc : cmpIcon x y ≤ 0
    · rw [if_pos hc]
      refine List.pairwise_cons.mpr ⟨?_, h⟩
      intro b hb
      rcases List.mem_cons.mp hb with rfl | hb2
      · exact hc
      · exact cmpIcon_le_trans hc (hy b hb2)
    · rw [if_neg hc]
      refine List.pairwise_cons.mpr ⟨?_, ih ht⟩
      intro b hb
      rcases mem_insertScored.mp hb with rfl | hb2
      · exact cmpIcon_le_total hc
      · exact hy b hb2

theorem sortScored_pairwise (l : List ScoredIcon) :
    (sortScored l).Pairwise (fun a b => cmpIcon a b ≤ 0) := by
  induction l with
  | nil => exact List.Pairwise.nil
  | cons x r ih => exact pairwise_insertScored ih

theorem mem_bestIconPool {c : ScoredIcon} {icons : List WebManifestIcon} :
    c ∈ bestIconPool icons ↔
      ∃ i, i ∈ icons ∧ purposeHasMaskable i = false ∧ scoreIcon i = c := by
  constructor
  · intro h
    rw [show bestIconPool icons =
      sortScored ((icons.filter (fun i => !purposeHasMaskable i)).map scoreIcon) from rfl,
      mem_sortScored] at h
    obtain ⟨i, hi, hsc⟩ := List.mem_map.mp h
    obtain ⟨hmem, hp⟩ := List.mem_filter.mp hi
    exact ⟨i, hmem, by simpa using hp, hsc⟩
  · intro h
    obtain ⟨i, hmem, hp, hsc⟩ := h
    rw [show bestIconPool icons =
      sortScored ((icons.filter (fun i => !purposeHasMaskable i)).map scoreIcon) from rfl,
      mem_sortScored]
    exact List.mem_map.mpr ⟨i, List.mem_filter.mpr ⟨hmem, by simp [hp]⟩, hsc⟩

theorem firstHttps_some {base : String} : ∀ {l : List ScoredIcon} {u : String},
    firstHttps base l = some u →
    ∃ c, c ∈ l ∧ resolveUrl c.icon.src base = u ∧ isHttpsUrl u = true := by
  intro l
  induction l with
  | nil =>
    intro u h
    exact absurd h (by simp [firstHttps])
  | cons c r ih =>
    intro u h
    have hstep : firstHttps base (c :: r) =
        (if isHttpsUrl (resolveUrl c.icon.src base) then some (resolveUrl c.icon.src base)
         else firstHttps base r) := rfl
    rw [hstep] at h
    by_cases hc : isHttpsUrl (resolveUrl c.icon.src base) = true
    · rw [if_pos hc] at h
      have hu := Option.some.inj h
      exact ⟨c, List.mem_cons_self _ _, hu, by rw [← hu]; exact hc⟩
    · rw [if_neg hc] at h
      obtain ⟨c2, hm, hr2, hh⟩ := ih h
      exact ⟨c2, List.mem_cons_of_mem _ hm, hr2, hh⟩

theorem firstHttps_none {base : String} : ∀ {l : List ScoredIcon},
    (∀ c, c ∈ l → isHttpsUrl (resolveUrl c.icon.src base) = false) →
    firstHttps base l = none := by
  intro l
  induction l with
  | nil =>
    intro _
    rfl
  | cons c r ih =>
    intro h
    have hstep : firstHttps base (c :: r) =
        (if isHttpsUrl (resolveUrl c.icon.src base) then some (resolveUrl c.icon.src base)
         else firstHttps base r) := rfl
    rw [hstep, if_neg (by simp [h c (List.mem_cons_self _ _)])]
    exact ih (fun c2 hm => h c2 (List.mem_cons_of_mem _ hm))

theorem firstHttps_raster {base : String} : ∀ {l : List ScoredIcon},
    l.Pairwise (fun a b => cmpIcon a b ≤ 0) →
    ∀ c : ScoredIcon, c ∈ l → c.svg = false →
    isHttpsUrl (resolveUrl c.icon.src base) = true →
    ∃ c2, c2 ∈ l ∧ c2.svg = false ∧
      firstHttps base l = some (resolveUrl c2.icon.src base) := by
  intro l
  induction l with
  | nil =>
    intro _ c hc _ _
    exact absurd hc (List.not_mem_nil c)
  | cons y t ih =>
    intro hp c hc hcsvg hch
    obtain ⟨hy, ht⟩ := List.pairwise_cons.mp hp
    have hstep : firstHttps base (y :: t) =
        (if isHttpsUrl (resolveUrl y.icon.src base) then some (resolveUrl y.icon.src base)
         else firstHttps base t) := rfl
    by_cases hyh : isHttpsUrl (resolveUrl y.icon.src base) = true
    · have hysvg : y.svg = false := by
        rcases List.mem_cons.mp hc with rfl | hct
        · exact hcsvg
        · exact (cmpIcon_interp (hy c hct)).1 hcsvg
      exact ⟨y, List.mem_cons_self _ _, hysvg, by rw [hstep, if_pos hyh]⟩
    · have hct : c ∈ t := by
        rcases List.mem_cons.mp hc with rfl | hct
        · exact absurd hch hyh
        · exact hct
      obtain ⟨c2, hm, hsvg, heq⟩ := ih ht c hct hcsvg hch
      exact ⟨c2, List.mem_cons_of_mem _ hm, hsvg, by rw [hstep, if_neg hyh]; exact heq⟩

/-- C7: `selectBestIcon` only ever returns the HTTPS resolution of the `src`
of a non-maskable member of the input list; whenever some non-maskable raster
candidate resolves to an HTTPS URL the returned icon is raster (SVG never
outranks raster); the scanned pool is ordered raster-before-SVG and by
descending `maxSize` within a format class; exhausting all candidates yields
`none`; and on the concrete examples a 512x512 raster beats a 1024x1024 SVG,
a lone SVG is returned, a lone `http://` candidate yields `none`, the largest
raster wins, ties keep manifest order, and maskable icons are excluded. -/
theorem c7_selectBestIcon_policy :
    (∀ (icons : List WebManifestIcon) (base u : String),
      selectBestIcon icons base = some u →
      ∃ i, i ∈ icons ∧ purposeHasMaskable i = false ∧
        resolveUrl i.src base = u ∧ isHttpsUrl u = true) ∧
    (∀ (icons : List WebManifestIcon) (base : String) (i : WebManifestIcon),
      i ∈ icons → purposeHasMaskable i = false → isSvgIcon i = false →
      isHttpsUrl (resolveUrl i.src base) = true →
      ∃ i2, i2 ∈ icons ∧ isSvgIcon i2 = false ∧
        selectBestIcon icons base = some (resolveUrl i2.src base)) ∧
    (∀ icons : List WebManifestIcon,
      (bestIconPool icons).Pairwise (fun a b =>
        (b.svg = false → a.svg = false) ∧ (a.svg = b.svg → b.size ≤ a.size))) ∧
    (∀ (icons : List WebManifestIcon) (base : String),
      (∀ i, i ∈ icons → purposeHasMaskable i = false →
        isHttpsUrl (resolveUrl i.src base) = false) →
      selectBestIcon icons base = none) ∧
    (∀ i : WebManifestIcon, (scoreIcon i).size = maxSize ((i.sizes.getD "0x0").data) ∧
      (scoreIcon i).svg = isSvgIcon i) ∧
    maxSize "48x48 72x72 96x96".data = 96 ∧
    selectBestIcon [⟨"/icon.svg", some "1024x1024", none, none⟩,
        ⟨"/icon-512.png", some "512x512", none, none⟩] "https://example.com" =
      some "https://example.com/icon-512.png" ∧
    selectBestIcon [⟨"/icon.svg", some "1024x1024", none, none⟩] "https://example.com" =
      some "https://example.com/icon.svg" ∧
    selectBestIcon [⟨"http://example.com/icon.png", some "512x512", none, none⟩]
        "https://example.com" = none ∧
    selectBestIcon [⟨"/a.png", some "256x256", none, none⟩,
        ⟨"/b.png", some "512x512", none, none⟩] "https://example.com" =
      some "https://example.com/b.png" ∧
    selectBestIcon [⟨"/first.png", some "512x512", none, none⟩,
        ⟨"/second.png", some "512x512", none, none⟩] "https://example.com" =
      some "https://example.com/first.png" ∧
    selectBestIcon [⟨"/mask.png", some "1024x1024", none, some "maskable"⟩,
        ⟨"/plain.png", some "192x192", none, none⟩] "https://example.com" =
      some "https://example.com/plain.png" := by
  refine ⟨?_, ?_, ?_, ?_, fun i => ⟨rfl, rfl⟩, by decide, by decide, by decide, by decide,
    by decide, by decide, by decide⟩
  · intro icons base u h
    have hdef : selectBestIcon icons base =
        (if icons.length = 0 then none else firstHttps base (bestIconPool icons)) := rfl
    rw [hdef] at h
    by_cases hlen : icons.length = 0
    · rw [if_pos hlen] at h
      exact absurd h (by simp)
    · rw [if_neg hlen] at h
      obtain ⟨c, hm, hres, hhttps⟩ := firstHttps_some h
      obtain ⟨i, hmem, hmask, hsc⟩ := mem_bestIconPool.mp hm
      refine ⟨i, hmem, hmask, ?_, hhttps⟩
      rw [← hres, ← hsc]
      rfl
  · intro icons base i hi hmask hsvg hh
    have hlen : ¬ icons.length = 0 := by
      cases icons with
      | nil => exact absurd hi (List.not_mem_nil i)
      | cons a l => simp
    have hdef : selectBestIcon icons base =
        (if icons.length = 0 then none else firstHttps base (bestIconPool icons)) := rfl
    have hcpool : scoreIcon i ∈ bestIconPool icons :=
      mem_bestIconPool.mpr ⟨i, hi, hmask, rfl⟩
    have hcsvg : (scoreIcon i).svg = false := hsvg
    have hch : isHttpsUrl (resolveUrl (scoreIcon i).icon.src base) = true := hh
    obtain ⟨c2, hm2, hsvg2, heq⟩ := firstHttps_raster
      (sortScored_pairwise ((icons.filter (fun i => !purposeHasMaskable i)).map scoreIcon))
      (scoreIcon i) hcpool hcsvg hch
    obtain ⟨i2, hmem2, hmask2, hsc2⟩ := mem_bestIconPool.mp hm2
    refine ⟨i2, hmem2, ?_, ?_⟩
    · rw [← hsc2] at hsvg2
      exact hsvg2
    · have heq2 : firstHttps base (bestIconPool icons) =
          some (resolveUrl c2.icon.src base) := heq
      rw [hdef, if_neg hlen, heq2, ← hsc2]
      rfl
  · intro icons
    exact List.Pairwise.imp (fun h => cmpIcon_interp h)
      (sortScored_pairwise ((icons.filter (fun i => !purposeHasMaskable i)).map scoreIcon))
  · intro icons base h
    have hdef : selectBestIcon icons base =
        (if icons.length = 0 then none else firstHttps base (bestIconPool icons)) := rfl
    rw [hdef]
    by_cases hlen : icons.length = 0
    · rw [if_pos hlen]
    · rw [if_neg hlen]
      refine firstHttps_none ?_
      intro c hm
      obtain ⟨i, hmem, hmask, hsc⟩ := mem_bestIconPool.mp hm
      rw [← hsc]
      exact h i hmem hmask

theorem c7_selectBestIcon_policy_witness :
    ∃ i2, i2 ∈ [(⟨"/icon-512.png", some "512x512", none, none⟩ : WebManifestIcon),
        ⟨"/icon.svg", some "1024x1024", none, none⟩] ∧ isSvgIcon i2 = false ∧
      selectBestIcon [(⟨"/icon-512.png", some "512x512", none, none⟩ : WebManifestIcon),
          ⟨"/icon.svg", some "1024x1024", none, none⟩] "https://example.com" =
        some (resolveUrl i2.src "https://example.com") :=
  c7_selectBestIcon_policy.2.1 _ "https://example.com"
    ⟨"/icon-512.png", some "512x512", none, none⟩ (List.mem_cons_self _ _)
    (by decide) (by decide) (by decide)

end PwaMaker
